import Mathlib

/-!
Shallow embedding of the ttf-utils glyph-outline engine (src/lib.rs).

Coordinates are embedded as exact rationals: every spec claim checked here is
about the algebraic structure of the code (branching, index sweeps, folds),
phrased "exact in the embedded float arithmetic".  The one genuinely numeric
primitive, the f32 square root used to normalise edge vectors, is modelled by
an explicit nonnegative function that is exact on perfect squares; the
emboldening sweep is additionally parametrised over an arbitrary square-root
function wherever a property does not depend on its values.
-/

namespace TtfUtils

/-- Mirror of struct Point (lib.rs line 227): a 2D coordinate value type. -/
structure Point where
  x : ℚ
  y : ℚ
deriving DecidableEq, Repr

/-- Rust Point::default(): both coordinates zero. -/
def Point.zero : Point := ⟨0, 0⟩

/-- Mirror of struct BBox (lib.rs lines 3-14). -/
structure BBox where
  x_min : ℚ
  y_min : ℚ
  x_max : ℚ
  y_max : ℚ
deriving DecidableEq, Repr

/-- Rust BBox::default(): derive(Default) yields 0.0 in every field. -/
def BBox.default : BBox := ⟨0, 0, 0, 0⟩

/-- BBox::width (lib.rs line 19). -/
def BBox.width (b : BBox) : ℚ := b.x_max - b.x_min

/-- BBox::height (lib.rs line 25). -/
def BBox.height (b : BBox) : ℚ := b.y_max - b.y_min

/-- BBox::extend_by (lib.rs lines 31-36). -/
def BBox.extend_by (b : BBox) (x y : ℚ) : BBox :=
  ⟨min b.x_min x, min b.y_min y, max b.x_max x, max b.y_max y⟩

/-- Mirror of enum PathVerb (lib.rs lines 218-225). -/
inductive PathVerb where
  | moveTo
  | lineTo
  | quadTo
  | curveTo
  | close
deriving DecidableEq, Repr

/-- Mirror of struct Contour (lib.rs lines 212-216). -/
structure Contour where
  verbs : List PathVerb
  points : List Point
deriving DecidableEq, Repr

instance : Inhabited Contour := ⟨⟨[], []⟩⟩

/-- Mirror of struct Outline (lib.rs lines 40-45); the Cell<Option<BBox>>
    cache is explicit state. -/
structure Outline where
  bboxCache : Option BBox
  cff : Bool
  contours : List Contour
deriving DecidableEq, Repr

/-- All recorded points of all contours in order,
    as iterated by contours.iter().flat_map(|c| &c.points). -/
def Outline.flatPoints (o : Outline) : List Point :=
  (o.contours.map Contour.points).flatten

/-- All verbs of all contours in order,
    as iterated by contours.iter().flat_map(|c| &c.verbs). -/
def Outline.flatVerbs (o : Outline) : List PathVerb :=
  (o.contours.map Contour.verbs).flatten

/-- The uncached bbox computation of Outline::bbox (lib.rs lines 66-69):
    fold extend_by over every recorded point starting from BBox::default(). -/
def Outline.computeBBox (o : Outline) : BBox :=
  o.flatPoints.foldl (fun b p => b.extend_by p.x p.y) BBox.default

/-- Outline::bbox (lib.rs lines 62-74).  The Cell mutation through &self is
    returned as the second component. -/
def Outline.bbox (o : Outline) : BBox × Outline :=
  match o.bboxCache with
  | some b => (b, o)
  | none =>
      let b := o.computeBBox
      (b, { o with bboxCache := some b })

/-- Outline::oblique (lib.rs lines 169-178). -/
def Outline.oblique (o : Outline) (x_skew : ℚ) : Outline :=
  { o with
    bboxCache := none
    contours := o.contours.map fun c =>
      { c with points := c.points.map fun p =>
          if p.y ≠ 0 then { p with x := p.x + p.y * x_skew } else p } }

/-- Ascending search for the integer square root: grow the candidate while
    its successor still squares to at most n (structurally recursive fuel). -/
def natSqrtAux : Nat → Nat → Nat → Nat
  | 0, _, c => c
  | fuel + 1, n, c => if (c + 1) * (c + 1) ≤ n then natSqrtAux fuel n (c + 1) else c

/-- Integer square root, structurally recursive (kernel-reducible). -/
def natSqrt (n : Nat) : Nat :=
  natSqrtAux n n 0

/-- Model of f32::sqrt: nonnegative, zero on nonpositive input, and exact on
    perfect rational squares (the only values the concrete claims touch). -/
def rsqrt (q : ℚ) : ℚ :=
  if q ≤ 0 then 0 else (natSqrt q.num.toNat : ℚ) / (natSqrt q.den : ℚ)

/-- Circular index advance used throughout the embolden sweep
    (lib.rs lines 109, 150, 158): if a < last then a + 1 else 0. -/
def circNext (last a : Nat) : Nat :=
  if a < last then a + 1 else 0

/-- Inner translation loop of Outline::embolden (lib.rs lines 146-151):
    starting at the trailing index, translate each point by
    (strength + shift.x, strength + shift.y) and advance circularly until the
    leading index is reached.  Fuel-based; fuel = last + 1 always suffices. -/
def translateRun (strength : ℚ) (shift : Point) (last : Nat) :
    Nat → Nat → Nat → List Point → Nat × List Point
  | 0, i, _, pts => (i, pts)
  | fuel + 1, i, j, pts =>
      if i = j then (i, pts)
      else
        let p := pts.getD i Point.zero
        translateRun strength shift last fuel (circNext last i) j
          (pts.set i ⟨p.x + strength + shift.x, p.y + strength + shift.y⟩)

/-- State of the circular corner sweep in Outline::embolden
    (lib.rs lines 92-100): trailing index i, leading index j, the anchor
    index k, the incoming unit direction and length, and the remembered
    anchor direction and length, together with the contour's points. -/
structure SweepState where
  i : Nat
  j : Nat
  k : Option Nat
  inPt : Point
  inLen : ℚ
  anchorPt : Point
  anchorLen : ℚ
  pts : List Point
deriving DecidableEq, Repr

/-- Loop exit condition of the sweep: the Rust loop runs
    while i != j && Some(i) != k (lib.rs line 101). -/
def sweepDone (s : SweepState) : Bool :=
  s.i = s.j || s.k = some s.i

/-- The winding-signed cross product q of the sweep corner
    (lib.rs lines 126-129): q = out x in when the outline is CFF,
    negated otherwise. -/
def shiftQ (cff : Bool) (inPt outPt : Point) : ℚ :=
  if cff then outPt.x * inPt.y - outPt.y * inPt.x
  else -(outPt.x * inPt.y - outPt.y * inPt.x)

/-- The winding-signed 90-degree rotation of the sum of the unit directions
    (lib.rs lines 132-136). -/
def shiftXY (cff : Bool) (inPt outPt : Point) : Point :=
  if cff then ⟨inPt.y + outPt.y, -(inPt.x + outPt.x)⟩
  else ⟨-(inPt.y + outPt.y), inPt.x + outPt.x⟩

/-- The corner shift vector of one sweep iteration (lib.rs lines 123-144):
    on a real corner (dot product above the -0.9375 threshold) a miter shift
    from the rotated sum of the unit directions, clamped to the shorter
    adjacent edge when the miter would overshoot; on a near-reversal, zero.
    The shadowed Rust binding d = d + 1.0 appears here spelled out. -/
def sweepShift (cff : Bool) (strength : ℚ) (inPt : Point) (inLen : ℚ)
    (outPt : Point) (outLen : ℚ) : Point :=
  if inPt.x * outPt.x + inPt.y * outPt.y > -(15 / 16 : ℚ) then
    if strength * shiftQ cff inPt outPt ≤
        min inLen outLen * (inPt.x * outPt.x + inPt.y * outPt.y + 1) then
      ⟨(shiftXY cff inPt outPt).x * strength /
          (inPt.x * outPt.x + inPt.y * outPt.y + 1),
        (shiftXY cff inPt outPt).y * strength /
          (inPt.x * outPt.x + inPt.y * outPt.y + 1)⟩
    else
      ⟨(shiftXY cff inPt outPt).x * min inLen outLen / shiftQ cff inPt outPt,
        (shiftXY cff inPt outPt).y * min inLen outLen / shiftQ cff inPt outPt⟩
  else Point.zero

/-- Body of one sweep iteration once the outgoing direction and length are
    known (lib.rs lines 116-157): optionally set the anchor, compute the
    corner shift (miter with self-intersection clamp, or zero on a
    near-reversal), translate the pending run of points, record the outgoing
    direction as incoming and advance the leading index. -/
def sweepBody (cff : Bool) (strength : ℚ) (last : Nat) (s : SweepState)
    (outPt : Point) (outLen : ℚ) : SweepState :=
  if s.inLen ≠ 0 then
    { i := (translateRun strength
        (sweepShift cff strength s.inPt s.inLen outPt outLen) last (last + 1)
        s.i s.j s.pts).1,
      j := circNext last s.j,
      k := if s.k = none then some s.i else s.k,
      inPt := outPt, inLen := outLen,
      anchorPt := if s.k = none then s.inPt else s.anchorPt,
      anchorLen := if s.k = none then s.inLen else s.anchorLen,
      pts := (translateRun strength
        (sweepShift cff strength s.inPt s.inLen outPt outLen) last (last + 1)
        s.i s.j s.pts).2 }
  else
    { s with i := s.j, j := circNext last s.j, inPt := outPt, inLen := outLen }

/-- Components and length of the outgoing edge points[j] - points[i]
    (lib.rs lines 103-105). -/
def edgeX (s : SweepState) : ℚ :=
  (s.pts.getD s.j Point.zero).x - (s.pts.getD s.i Point.zero).x

def edgeY (s : SweepState) : ℚ :=
  (s.pts.getD s.j Point.zero).y - (s.pts.getD s.i Point.zero).y

def edgeLen (sqrtFn : ℚ → ℚ) (s : SweepState) : ℚ :=
  sqrtFn (edgeX s * edgeX s + edgeY s * edgeY s)

/-- One full iteration of the sweep loop (lib.rs lines 101-159), assuming the
    loop condition holds: either reuse the anchor direction when the leading
    index has wrapped onto the anchor, or compute the outgoing edge; a
    zero-length edge only advances the leading index (the continue path). -/
def sweepStep (cff : Bool) (sqrtFn : ℚ → ℚ) (strength : ℚ) (last : Nat)
    (s : SweepState) : SweepState :=
  if some s.j ≠ s.k then
    if edgeLen sqrtFn s ≠ 0 then
      sweepBody cff strength last s
        ⟨edgeX s / edgeLen sqrtFn s, edgeY s / edgeLen sqrtFn s⟩ (edgeLen sqrtFn s)
    else
      { s with j := circNext last s.j }
  else
    sweepBody cff strength last s s.anchorPt s.anchorLen

/-- The fueled sweep loop; the Bool records whether the loop exited through
    its own condition (it always does: fuel is sufficient, proved below). -/
def sweepLoop (cff : Bool) (sqrtFn : ℚ → ℚ) (strength : ℚ) (last : Nat) :
    Nat → SweepState → Bool × SweepState
  | 0, s => (false, s)
  | fuel + 1, s =>
      if sweepDone s then (true, s)
      else sweepLoop cff sqrtFn strength last fuel (sweepStep cff sqrtFn strength last s)

/-- The closed test of lib.rs line 85: more than one point and
    points.last() == points.first(). -/
def contourClosed (c : Contour) : Prop :=
  1 < c.points.length ∧ c.points.getLast? = c.points.head?

instance (c : Contour) : Decidable (contourClosed c) :=
  inferInstanceAs (Decidable (_ ∧ _))

/-- The top index of the sweep range (lib.rs lines 86-90). -/
def sweepLast (c : Contour) : Nat :=
  if contourClosed c then c.points.length - 2 else c.points.length - 1

/-- The sweep of Outline::embolden over one contour (lib.rs lines 85-159):
    the closed flag and the sweep range, the initial state i = last, j = 0,
    no anchor, zero incoming direction, and a sufficient fuel. -/
def contourSweep (cff : Bool) (sqrtFn : ℚ → ℚ) (strength : ℚ) (c : Contour) :
    Bool × SweepState :=
  sweepLoop cff sqrtFn strength (sweepLast c) (3 * c.points.length + 4)
    ⟨sweepLast c, 0, none, Point.zero, 0, Point.zero, 0, c.points⟩

/-- Outline::embolden restricted to one contour (lib.rs lines 79-165):
    empty contours are skipped, the sweep runs, and a closed contour has its
    last point overwritten with its (possibly shifted) first point. -/
def emboldenContour (cff : Bool) (sqrtFn : ℚ → ℚ) (strength : ℚ) (c : Contour) :
    Contour :=
  if c.points.length = 0 then c
  else if contourClosed c then
    ⟨c.verbs, ((contourSweep cff sqrtFn strength c).2.pts).set
      (c.points.length - 1)
      (((contourSweep cff sqrtFn strength c).2.pts).getD 0 Point.zero)⟩
  else ⟨c.verbs, (contourSweep cff sqrtFn strength c).2.pts⟩

/-- Outline::embolden (lib.rs lines 77-166), parametrised over the model of
    f32::sqrt: invalidate the bbox cache, then process every contour. -/
def Outline.emboldenWith (sqrtFn : ℚ → ℚ) (o : Outline) (strength : ℚ) : Outline :=
  { o with
    bboxCache := none
    contours := o.contours.map (emboldenContour o.cff sqrtFn strength) }

/-- Outline::embolden with the concrete square-root model. -/
def Outline.embolden (o : Outline) (strength : ℚ) : Outline :=
  o.emboldenWith rsqrt strength

/-- A path-sink call, carrying the same data as the ttf_parser
    OutlineBuilder trait methods. -/
inductive PathCmd where
  | moveTo (x y : ℚ)
  | lineTo (x y : ℚ)
  | quadTo (x1 y1 x y : ℚ)
  | curveTo (x1 y1 x2 y2 x y : ℚ)
  | close
deriving DecidableEq, Repr

/-- State of struct OutlineBuilder (lib.rs lines 240-243): the outline under
    construction plus the 1-based current contour counter. -/
structure RecState where
  outline : Outline
  current : Nat
deriving Repr

/-- OutlineBuilder::new (lib.rs lines 247-252) over a fresh Outline as built
    by Outline::new (lib.rs lines 50-55). -/
def initRec (cff : Bool) : RecState :=
  ⟨⟨none, cff, []⟩, 1⟩

/-- In-place update of the element at one index, when present. -/
def listModify (l : List α) (idx : Nat) (f : α → α) : List α :=
  match l[idx]? with
  | some a => l.set idx (f a)
  | none => l

/-- OutlineBuilder::current_contour (lib.rs lines 255-261) followed by the
    verb/point pushes each trait method performs: materialise the current
    contour when needed, then append to contours[current - 1]. -/
def pushToContour (s : RecState) (v : PathVerb) (ps : List Point) : RecState :=
  let s :=
    if s.outline.contours.length < s.current then
      { s with outline :=
          { s.outline with contours := s.outline.contours ++ [⟨[], []⟩] } }
    else s
  let cs := listModify s.outline.contours (s.current - 1)
    (fun c => ⟨c.verbs ++ [v], c.points ++ ps⟩)
  { s with outline := { s.outline with contours := cs } }

/-- One recorder call (lib.rs lines 264-296): each method appends its verb
    and points to the current contour; close additionally advances the
    current contour counter. -/
def record1 (s : RecState) (cmd : PathCmd) : RecState :=
  match cmd with
  | .moveTo x y => pushToContour s .moveTo [⟨x, y⟩]
  | .lineTo x y => pushToContour s .lineTo [⟨x, y⟩]
  | .quadTo x1 y1 x y => pushToContour s .quadTo [⟨x1, y1⟩, ⟨x, y⟩]
  | .curveTo x1 y1 x2 y2 x y =>
      pushToContour s .curveTo [⟨x1, y1⟩, ⟨x2, y2⟩, ⟨x, y⟩]
  | .close =>
      let s := pushToContour s .close []
      { s with current := s.current + 1 }

/-- Recording a full path into a fresh Outline through the recorder. -/
def recordPath (cff : Bool) (cmds : List PathCmd) : Outline :=
  (cmds.foldl record1 (initRec cff)).outline

/-- The verb walk of Outline::emit (lib.rs lines 183-208) over flattened
    verbs with a shared point cursor; none models the unwrap panic on point
    exhaustion, and leftover points are returned (the source never checks
    them). -/
def emitAux : List PathVerb → List Point → Option (List PathCmd × List Point)
  | [], pts => some ([], pts)
  | .moveTo :: vs, p :: pts =>
      (emitAux vs pts).map fun r => (.moveTo p.x p.y :: r.1, r.2)
  | .lineTo :: vs, p1 :: pts =>
      (emitAux vs pts).map fun r => (.lineTo p1.x p1.y :: r.1, r.2)
  | .quadTo :: vs, p1 :: p :: pts =>
      (emitAux vs pts).map fun r => (.quadTo p1.x p1.y p.x p.y :: r.1, r.2)
  | .curveTo :: vs, p1 :: p2 :: p :: pts =>
      (emitAux vs pts).map fun r =>
        (.curveTo p1.x p1.y p2.x p2.y p.x p.y :: r.1, r.2)
  | .close :: vs, pts =>
      (emitAux vs pts).map fun r => (.close :: r.1, r.2)
  | _, _ => none

/-- Outline::emit (lib.rs lines 181-209): replay every verb of every contour
    in order against the flattened point cursor, returning the sequence of
    sink calls (none when the cursor runs out of points). -/
def Outline.emit (o : Outline) : Option (List PathCmd) :=
  match emitAux o.flatVerbs o.flatPoints with
  | some r => some r.1
  | none => none

/-! ### Generic fold lemmas for the bounding-box characterisation -/

theorem foldl_min_spec {α : Type _} [LinearOrder α] (l : List α) (a : α) :
    l.foldl min a ≤ a ∧ (∀ x ∈ l, l.foldl min a ≤ x) ∧
      (l.foldl min a = a ∨ l.foldl min a ∈ l) := by
  induction l generalizing a with
  | nil => simp
  | cons y ys ih =>
      obtain ⟨h1, h2, h3⟩ := ih (min a y)
      refine ⟨le_trans h1 (min_le_left _ _), ?_, ?_⟩
      · intro x hx
        rcases List.mem_cons.1 hx with rfl | hx
        · exact le_trans h1 (min_le_right _ _)
        · exact h2 x hx
      · rcases h3 with h | h
        · rcases le_total a y with hay | hya
          · exact Or.inl (by rw [List.foldl_cons, h, min_eq_left hay])
          · refine Or.inr ?_
            rw [List.foldl_cons, h, min_eq_right hya]
            exact List.mem_cons_self y ys
        · exact Or.inr (List.mem_cons_of_mem _ h)

theorem foldl_max_spec {α : Type _} [LinearOrder α] (l : List α) (a : α) :
    a ≤ l.foldl max a ∧ (∀ x ∈ l, x ≤ l.foldl max a) ∧
      (l.foldl max a = a ∨ l.foldl max a ∈ l) := by
  induction l generalizing a with
  | nil => simp
  | cons y ys ih =>
      obtain ⟨h1, h2, h3⟩ := ih (max a y)
      refine ⟨le_trans (le_max_left _ _) h1, ?_, ?_⟩
      · intro x hx
        rcases List.mem_cons.1 hx with rfl | hx
        · exact le_trans (le_max_right _ _) h1
        · exact h2 x hx
      · rcases h3 with h | h
        · rcases le_total y a with hya | hay
          · exact Or.inl (by rw [List.foldl_cons, h, max_eq_left hya])
          · refine Or.inr ?_
            rw [List.foldl_cons, h, max_eq_right hay]
            exact List.mem_cons_self y ys
        · exact Or.inr (List.mem_cons_of_mem _ h)

/-- The extend_by fold computes the four coordinate folds independently. -/
theorem bboxFold_components (ps : List Point) (b : BBox) :
    ps.foldl (fun b p => b.extend_by p.x p.y) b =
      ⟨(ps.map Point.x).foldl min b.x_min, (ps.map Point.y).foldl min b.y_min,
       (ps.map Point.x).foldl max b.x_max, (ps.map Point.y).foldl max b.y_max⟩ := by
  induction ps generalizing b with
  | nil => rfl
  | cons p ps ih =>
      rw [List.foldl_cons, ih]
      simp only [List.map_cons, List.foldl_cons]
      rfl

theorem computeBBox_components (o : Outline) :
    o.computeBBox =
      ⟨(o.flatPoints.map Point.x).foldl min 0, (o.flatPoints.map Point.y).foldl min 0,
       (o.flatPoints.map Point.x).foldl max 0, (o.flatPoints.map Point.y).foldl max 0⟩ :=
  bboxFold_components o.flatPoints BBox.default

theorem bbox_fst_of_cache_none {o : Outline} (h : o.bboxCache = none) :
    (o.bbox).1 = o.computeBBox := by
  simp [Outline.bbox, h]

/-! ### Claim C1 -/

/-- A one-point outline refuting tightness of bbox. -/
def outlinePt55 : Outline := ⟨none, false, [⟨[.moveTo], [⟨5, 5⟩]⟩]⟩

/-- Claim C1, as stated, is false: the outline whose sole recorded point is
    (5, 5) gets a bbox whose x_min is 0, not the minimum recorded x (which
    is 5), because the fold starts from the all-zero derived default box. -/
theorem claimC1_counterexample :
    (outlinePt55.bbox).1.x_min = 0 ∧ (∀ p ∈ outlinePt55.flatPoints, p.x = 5) ∧
      (0 : ℚ) ≠ 5 := by
  refine ⟨rfl, ?_, by norm_num⟩
  intro p hp
  simp only [outlinePt55, Outline.flatPoints] at hp
  simp only [List.map_cons, List.map_nil, List.flatten_cons, List.flatten_nil,
    List.append_nil, List.mem_singleton] at hp
  rw [hp]

/-- Claim C1 (amended): for every outline whose bbox cache is empty, bbox()
    returns the tight bounding box of the recorded points of every contour
    together with the origin: each bound is attained by a recorded point or
    by 0, bounds every recorded point, and also bounds 0 (the start value of
    the fold, coming from the derived all-zero default box). -/
theorem claimC1_bbox_tight_with_origin (o : Outline) (h : o.bboxCache = none) :
    (∀ p ∈ o.flatPoints,
        (o.bbox).1.x_min ≤ p.x ∧ (o.bbox).1.y_min ≤ p.y ∧
          p.x ≤ (o.bbox).1.x_max ∧ p.y ≤ (o.bbox).1.y_max) ∧
      ((o.bbox).1.x_min ≤ 0 ∧ (o.bbox).1.y_min ≤ 0 ∧
        0 ≤ (o.bbox).1.x_max ∧ 0 ≤ (o.bbox).1.y_max) ∧
      ((o.bbox).1.x_min = 0 ∨ ∃ p ∈ o.flatPoints, (o.bbox).1.x_min = p.x) ∧
      ((o.bbox).1.y_min = 0 ∨ ∃ p ∈ o.flatPoints, (o.bbox).1.y_min = p.y) ∧
      ((o.bbox).1.x_max = 0 ∨ ∃ p ∈ o.flatPoints, (o.bbox).1.x_max = p.x) ∧
      ((o.bbox).1.y_max = 0 ∨ ∃ p ∈ o.flatPoints, (o.bbox).1.y_max = p.y) := by
  rw [bbox_fst_of_cache_none h, computeBBox_components]
  obtain ⟨hx1, hx2, hx3⟩ := foldl_min_spec (o.flatPoints.map Point.x) (0 : ℚ)
  obtain ⟨hy1, hy2, hy3⟩ := foldl_min_spec (o.flatPoints.map Point.y) (0 : ℚ)
  obtain ⟨hX1, hX2, hX3⟩ := foldl_max_spec (o.flatPoints.map Point.x) (0 : ℚ)
  obtain ⟨hY1, hY2, hY3⟩ := foldl_max_spec (o.flatPoints.map Point.y) (0 : ℚ)
  refine ⟨?_, ⟨hx1, hy1, hX1, hY1⟩, ?_, ?_, ?_, ?_⟩
  · intro p hp
    exact ⟨hx2 _ (List.mem_map_of_mem _ hp), hy2 _ (List.mem_map_of_mem _ hp),
      hX2 _ (List.mem_map_of_mem _ hp), hY2 _ (List.mem_map_of_mem _ hp)⟩
  · rcases hx3 with h' | h'
    · exact Or.inl h'
    · obtain ⟨p, hp, hpx⟩ := List.mem_map.1 h'
      exact Or.inr ⟨p, hp, hpx.symm⟩
  · rcases hy3 with h' | h'
    · exact Or.inl h'
    · obtain ⟨p, hp, hpy⟩ := List.mem_map.1 h'
      exact Or.inr ⟨p, hp, hpy.symm⟩
  · rcases hX3 with h' | h'
    · exact Or.inl h'
    · obtain ⟨p, hp, hpx⟩ := List.mem_map.1 h'
      exact Or.inr ⟨p, hp, hpx.symm⟩
  · rcases hY3 with h' | h'
    · exact Or.inl h'
    · obtain ⟨p, hp, hpy⟩ := List.mem_map.1 h'
      exact Or.inr ⟨p, hp, hpy.symm⟩

/-- Witness for the amended C1 at the one-point outline. -/
theorem claimC1_witness :
    outlinePt55.bboxCache = none ∧
      ((∀ p ∈ outlinePt55.flatPoints,
          (outlinePt55.bbox).1.x_min ≤ p.x ∧ (outlinePt55.bbox).1.y_min ≤ p.y ∧
            p.x ≤ (outlinePt55.bbox).1.x_max ∧ p.y ≤ (outlinePt55.bbox).1.y_max) ∧
        ((outlinePt55.bbox).1.x_min ≤ 0 ∧ (outlinePt55.bbox).1.y_min ≤ 0 ∧
          0 ≤ (outlinePt55.bbox).1.x_max ∧ 0 ≤ (outlinePt55.bbox).1.y_max) ∧
        ((outlinePt55.bbox).1.x_min = 0 ∨
          ∃ p ∈ outlinePt55.flatPoints, (outlinePt55.bbox).1.x_min = p.x) ∧
        ((outlinePt55.bbox).1.y_min = 0 ∨
          ∃ p ∈ outlinePt55.flatPoints, (outlinePt55.bbox).1.y_min = p.y) ∧
        ((outlinePt55.bbox).1.x_max = 0 ∨
          ∃ p ∈ outlinePt55.flatPoints, (outlinePt55.bbox).1.x_max = p.x) ∧
        ((outlinePt55.bbox).1.y_max = 0 ∨
          ∃ p ∈ outlinePt55.flatPoints, (outlinePt55.bbox).1.y_max = p.y)) :=
  ⟨rfl, claimC1_bbox_tight_with_origin outlinePt55 rfl⟩

/-! ### Claim C2 -/

/-- The outline with no contours and no points. -/
def emptyOutline : Outline := ⟨none, false, []⟩

/-- Claim C2, as stated, is false: bbox() of the empty outline is the
    all-zero box (the derived Default), not an infinite sentinel box; in
    particular its x_min does not exceed its x_max, and extending it by the
    point (5, 7) does not yield the tight box of that point, so the fold
    start is not identity-safe. -/
theorem claimC2_counterexample :
    (emptyOutline.bbox).1 = ⟨0, 0, 0, 0⟩ ∧
      ¬ (emptyOutline.bbox).1.x_max < (emptyOutline.bbox).1.x_min ∧
      (emptyOutline.bbox).1.extend_by 5 7 ≠ ⟨5, 7, 5, 7⟩ := by
  decide

/-- Claim C2 (amended): for an outline with no recorded points, bbox()
    returns the all-zero default box (Rust's derive(Default) on f32 fields),
    not an infinite sentinel box; the fold start is the zero box, so every
    computed bbox contains the origin. -/
theorem claimC2_empty_bbox_zero (o : Outline) (h : o.bboxCache = none)
    (hpts : o.flatPoints = []) : (o.bbox).1 = ⟨0, 0, 0, 0⟩ := by
  rw [bbox_fst_of_cache_none h]
  unfold Outline.computeBBox
  rw [hpts]
  rfl

/-- Witness for the amended C2 at the empty outline. -/
theorem claimC2_witness :
    (emptyOutline.bboxCache = none ∧ emptyOutline.flatPoints = []) ∧
      (emptyOutline.bbox).1 = ⟨0, 0, 0, 0⟩ :=
  ⟨⟨rfl, rfl⟩, claimC2_empty_bbox_zero emptyOutline rfl rfl⟩

/-! ### Claim C6 -/

/-- Claim C6 (confirmed): oblique(k) is a pure per-point shear: every point
    with y = 0 is left unchanged, every other point moves to
    (x + y * k, y), uniformly across all contours and positions (the result
    is a position-independent map), and verbs are untouched. -/
theorem claimC6_oblique_pure_shear (o : Outline) (k : ℚ) :
    (o.oblique k).contours =
      o.contours.map (fun c =>
        ⟨c.verbs, c.points.map fun p => if p.y = 0 then p else ⟨p.x + p.y * k, p.y⟩⟩) := by
  unfold Outline.oblique
  refine List.map_congr_left fun c _ => ?_
  have hfun : (fun p : Point => if p.y ≠ 0 then { p with x := p.x + p.y * k } else p) =
      fun p : Point => if p.y = 0 then p else ⟨p.x + p.y * k, p.y⟩ := by
    funext p
    by_cases h : p.y = 0 <;> simp [h]
  rw [hfun]

/-! ### Recorder and emitter round-trip (Claim C3) -/

/-- The single verb each recorder call pushes. -/
def cmdVerb : PathCmd → PathVerb
  | .moveTo _ _ => .moveTo
  | .lineTo _ _ => .lineTo
  | .quadTo _ _ _ _ => .quadTo
  | .curveTo _ _ _ _ _ _ => .curveTo
  | .close => .close

/-- The points each recorder call pushes, in push order. -/
def cmdPoints : PathCmd → List Point
  | .moveTo x y => [⟨x, y⟩]
  | .lineTo x y => [⟨x, y⟩]
  | .quadTo x1 y1 x y => [⟨x1, y1⟩, ⟨x, y⟩]
  | .curveTo x1 y1 x2 y2 x y => [⟨x1, y1⟩, ⟨x2, y2⟩, ⟨x, y⟩]
  | .close => []

/-- Well-formedness of a recorder state: the 1-based current contour counter
    points at the last contour or just past it. -/
def RecWF (s : RecState) : Prop :=
  1 ≤ s.current ∧
    (s.outline.contours.length = s.current - 1 ∨
      s.outline.contours.length = s.current)

theorem set_concat_length (l : List α) (a b : α) :
    (l ++ [a]).set l.length b = l ++ [b] := by
  induction l with
  | nil => rfl
  | cons x xs ih =>
      show x :: ((xs ++ [a]).set xs.length b) = x :: (xs ++ [b])
      rw [ih]

theorem listModify_concat (l : List α) (a : α) (f : α → α) :
    listModify (l ++ [a]) l.length f = l ++ [f a] := by
  unfold listModify
  rw [List.getElem?_concat_length]
  exact set_concat_length l a (f a)

/-- The contours after a recorder push: the last contour (materialised when
    needed) receives the verb and the points. -/
theorem pushToContour_contours {s : RecState} (hwf : RecWF s) (v : PathVerb)
    (ps : List Point) :
    (∃ B c, s.outline.contours = B ++ [c] ∧
        (pushToContour s v ps).outline.contours =
          B ++ [⟨c.verbs ++ [v], c.points ++ ps⟩]) ∨
      ((pushToContour s v ps).outline.contours =
          s.outline.contours ++ [⟨[v], ps⟩]) := by
  have h1 := hwf.1
  have h2 := hwf.2
  unfold pushToContour
  by_cases hlt : s.outline.contours.length < s.current
  · refine Or.inr ?_
    have hlen : s.current - 1 = s.outline.contours.length := by omega
    simp only [hlt, if_pos, hlen, listModify_concat]
    simp
  · refine Or.inl ?_
    have hlen : s.outline.contours.length = s.current := by omega
    have hne : s.outline.contours ≠ [] := by
      intro h
      rw [h] at hlen
      simp at hlen
      omega
    obtain ⟨B, c, hBc⟩ : ∃ B c, s.outline.contours = B ++ [c] :=
      ⟨_, _, (List.dropLast_append_getLast hne).symm⟩
    refine ⟨B, c, hBc, ?_⟩
    have hidx : s.current - 1 = B.length := by
      have := congrArg List.length hBc
      simp at this
      omega
    simp only [hlt, if_neg, not_false_iff]
    rw [hBc, hidx]
    exact listModify_concat B c _

theorem pushToContour_current (s : RecState) (v : PathVerb) (ps : List Point) :
    (pushToContour s v ps).current = s.current := by
  unfold pushToContour
  by_cases hlt : s.outline.contours.length < s.current <;> simp [hlt]

theorem pushToContour_cache (s : RecState) (v : PathVerb) (ps : List Point) :
    (pushToContour s v ps).outline.bboxCache = s.outline.bboxCache ∧
      (pushToContour s v ps).outline.cff = s.outline.cff := by
  unfold pushToContour
  by_cases hlt : s.outline.contours.length < s.current <;> simp [hlt]

theorem pushToContour_flat {s : RecState} (hwf : RecWF s) (v : PathVerb)
    (ps : List Point) :
    (pushToContour s v ps).outline.flatVerbs = s.outline.flatVerbs ++ [v] ∧
      (pushToContour s v ps).outline.flatPoints = s.outline.flatPoints ++ ps ∧
      (pushToContour s v ps).outline.contours.length =
        s.outline.contours.length ∨
      (pushToContour s v ps).outline.flatVerbs = s.outline.flatVerbs ++ [v] ∧
      (pushToContour s v ps).outline.flatPoints = s.outline.flatPoints ++ ps ∧
      (pushToContour s v ps).outline.contours.length =
        s.outline.contours.length + 1 := by
  rcases pushToContour_contours hwf v ps with ⟨B, c, hBc, hres⟩ | hres
  · refine Or.inl ⟨?_, ?_, ?_⟩
    · simp only [Outline.flatVerbs, hres, hBc, List.map_append, List.map_cons,
        List.map_nil, List.flatten_append, List.flatten_cons, List.flatten_nil,
        List.append_nil, List.append_assoc]
    · simp only [Outline.flatPoints, hres, hBc, List.map_append, List.map_cons,
        List.map_nil, List.flatten_append, List.flatten_cons, List.flatten_nil,
        List.append_nil, List.append_assoc]
    · rw [hres, hBc]
      simp
  · refine Or.inr ⟨?_, ?_, ?_⟩
    · simp only [Outline.flatVerbs, hres, List.map_append, List.map_cons,
        List.map_nil, List.flatten_append, List.flatten_cons, List.flatten_nil,
        List.append_nil]
    · simp only [Outline.flatPoints, hres, List.map_append, List.map_cons,
        List.map_nil, List.flatten_append, List.flatten_cons, List.flatten_nil,
        List.append_nil]
    · rw [hres]
      simp

theorem listModify_length (l : List α) (i : Nat) (f : α → α) :
    (listModify l i f).length = l.length := by
  unfold listModify
  cases h : l[i]? <;> simp

/-- After a recorder push the current contour exists: the contour count
    equals the 1-based current counter. -/
theorem pushToContour_length {s : RecState} (hwf : RecWF s) (v : PathVerb)
    (ps : List Point) :
    (pushToContour s v ps).outline.contours.length = s.current := by
  obtain ⟨h1, h2⟩ := hwf
  unfold pushToContour
  by_cases hlt : s.outline.contours.length < s.current
  · simp only [hlt, if_pos]
    rw [listModify_length]
    simp
    omega
  · simp only [hlt, if_neg, not_false_iff]
    rw [listModify_length]
    omega

theorem record1_flat {s : RecState} (hwf : RecWF s) (cmd : PathCmd) :
    (record1 s cmd).outline.flatVerbs = s.outline.flatVerbs ++ [cmdVerb cmd] ∧
      (record1 s cmd).outline.flatPoints = s.outline.flatPoints ++ cmdPoints cmd ∧
      (record1 s cmd).outline.bboxCache = s.outline.bboxCache ∧
      (record1 s cmd).outline.cff = s.outline.cff ∧
      RecWF (record1 s cmd) := by
  have h1 := hwf.1
  have h2 := hwf.2
  cases cmd with
  | moveTo x y =>
      simp only [record1, cmdVerb, cmdPoints]
      obtain ⟨hc, hf⟩ := pushToContour_cache s PathVerb.moveTo [⟨x, y⟩]
      have hlen := pushToContour_length hwf PathVerb.moveTo [⟨x, y⟩]
      have hcur := pushToContour_current s PathVerb.moveTo [⟨x, y⟩]
      rcases pushToContour_flat hwf PathVerb.moveTo [⟨x, y⟩] with ⟨a, b, _⟩ | ⟨a, b, _⟩ <;>
        exact ⟨a, b, hc, hf, by rw [RecWF, hcur, hlen]; omega⟩
  | lineTo x y =>
      simp only [record1, cmdVerb, cmdPoints]
      obtain ⟨hc, hf⟩ := pushToContour_cache s PathVerb.lineTo [⟨x, y⟩]
      have hlen := pushToContour_length hwf PathVerb.lineTo [⟨x, y⟩]
      have hcur := pushToContour_current s PathVerb.lineTo [⟨x, y⟩]
      rcases pushToContour_flat hwf PathVerb.lineTo [⟨x, y⟩] with ⟨a, b, _⟩ | ⟨a, b, _⟩ <;>
        exact ⟨a, b, hc, hf, by rw [RecWF, hcur, hlen]; omega⟩
  | quadTo x1 y1 x y =>
      simp only [record1, cmdVerb, cmdPoints]
      obtain ⟨hc, hf⟩ := pushToContour_cache s PathVerb.quadTo [⟨x1, y1⟩, ⟨x, y⟩]
      have hlen := pushToContour_length hwf PathVerb.quadTo [⟨x1, y1⟩, ⟨x, y⟩]
      have hcur := pushToContour_current s PathVerb.quadTo [⟨x1, y1⟩, ⟨x, y⟩]
      rcases pushToContour_flat hwf PathVerb.quadTo [⟨x1, y1⟩, ⟨x, y⟩] with ⟨a, b, _⟩ | ⟨a, b, _⟩ <;>
        exact ⟨a, b, hc, hf, by rw [RecWF, hcur, hlen]; omega⟩
  | curveTo x1 y1 x2 y2 x y =>
      simp only [record1, cmdVerb, cmdPoints]
      obtain ⟨hc, hf⟩ :=
        pushToContour_cache s PathVerb.curveTo [⟨x1, y1⟩, ⟨x2, y2⟩, ⟨x, y⟩]
      have hlen :=
        pushToContour_length hwf PathVerb.curveTo [⟨x1, y1⟩, ⟨x2, y2⟩, ⟨x, y⟩]
      have hcur :=
        pushToContour_current s PathVerb.curveTo [⟨x1, y1⟩, ⟨x2, y2⟩, ⟨x, y⟩]
      rcases pushToContour_flat hwf PathVerb.curveTo [⟨x1, y1⟩, ⟨x2, y2⟩, ⟨x, y⟩] with
        ⟨a, b, _⟩ | ⟨a, b, _⟩ <;>
        exact ⟨a, b, hc, hf, by rw [RecWF, hcur, hlen]; omega⟩
  | close =>
      simp only [record1, cmdVerb, cmdPoints]
      obtain ⟨hc, hf⟩ := pushToContour_cache s PathVerb.close []
      have hlen := pushToContour_length hwf PathVerb.close []
      have hcur := pushToContour_current s PathVerb.close []
      rcases pushToContour_flat hwf PathVerb.close [] with ⟨a, b, _⟩ | ⟨a, b, _⟩ <;>
        exact ⟨a, by simpa using b, hc, hf, by rw [RecWF]; simp [hcur, hlen]⟩

theorem emitAux_extend_pts {vs : List PathVerb} {ps : List Point}
    {l : List PathCmd} {rest : List Point} (qs : List Point)
    (h : emitAux vs ps = some (l, rest)) :
    emitAux vs (ps ++ qs) = some (l, rest ++ qs) := by
  induction vs generalizing ps l rest with
  | nil =>
      simp only [emitAux, List.append_eq] at h ⊢
      obtain ⟨rfl, rfl⟩ := Prod.mk.injEq .. ▸ (Option.some.injEq .. ▸ h)
      exact rfl
  | cons v vs ih =>
      cases v with
      | moveTo =>
          cases ps with
          | nil => simp [emitAux] at h
          | cons p ps' =>
              simp only [emitAux, List.cons_append, List.append_eq] at h ⊢
              obtain ⟨r, hr, hmap⟩ := Option.map_eq_some'.1 h
              rw [ih hr]
              simp only [Option.map_some']
              obtain ⟨rfl, rfl⟩ := Prod.mk.injEq .. ▸ hmap
              rfl
      | lineTo =>
          cases ps with
          | nil => simp [emitAux] at h
          | cons p ps' =>
              simp only [emitAux, List.cons_append, List.append_eq] at h ⊢
              obtain ⟨r, hr, hmap⟩ := Option.map_eq_some'.1 h
              rw [ih hr]
              simp only [Option.map_some']
              obtain ⟨rfl, rfl⟩ := Prod.mk.injEq .. ▸ hmap
              rfl
      | quadTo =>
          match ps with
          | [] => simp [emitAux] at h
          | [p1] => simp [emitAux] at h
          | p1 :: p :: ps' =>
              simp only [emitAux, List.cons_append, List.append_eq] at h ⊢
              obtain ⟨r, hr, hmap⟩ := Option.map_eq_some'.1 h
              rw [ih hr]
              simp only [Option.map_some']
              obtain ⟨rfl, rfl⟩ := Prod.mk.injEq .. ▸ hmap
              rfl
      | curveTo =>
          match ps with
          | [] => simp [emitAux] at h
          | [p1] => simp [emitAux] at h
          | [p1, p2] => simp [emitAux] at h
          | p1 :: p2 :: p :: ps' =>
              simp only [emitAux, List.cons_append, List.append_eq] at h ⊢
              obtain ⟨r, hr, hmap⟩ := Option.map_eq_some'.1 h
              rw [ih hr]
              simp only [Option.map_some']
              obtain ⟨rfl, rfl⟩ := Prod.mk.injEq .. ▸ hmap
              rfl
      | close =>
          simp only [emitAux, List.append_eq] at h ⊢
          obtain ⟨r, hr, hmap⟩ := Option.map_eq_some'.1 h
          rw [ih hr]
          simp only [Option.map_some']
          obtain ⟨rfl, rfl⟩ := Prod.mk.injEq .. ▸ hmap
          rfl

theorem emitAux_append_verbs {vs ws : List PathVerb} {ps : List Point}
    {l l2 : List PathCmd} {rest rest2 : List Point}
    (h1 : emitAux vs ps = some (l, rest))
    (h2 : emitAux ws rest = some (l2, rest2)) :
    emitAux (vs ++ ws) ps = some (l ++ l2, rest2) := by
  induction vs generalizing ps l rest with
  | nil =>
      simp only [emitAux] at h1
      obtain ⟨rfl, rfl⟩ := Prod.mk.injEq .. ▸ (Option.some.injEq .. ▸ h1)
      simpa using h2
  | cons v vs ih =>
      cases v with
      | moveTo =>
          cases ps with
          | nil => simp [emitAux] at h1
          | cons p ps' =>
              simp only [emitAux, List.cons_append, List.append_eq] at h1 ⊢
              obtain ⟨r, hr, hmap⟩ := Option.map_eq_some'.1 h1
              obtain ⟨rfl, rfl⟩ := Prod.mk.injEq .. ▸ hmap
              rw [ih hr h2]
              rfl
      | lineTo =>
          cases ps with
          | nil => simp [emitAux] at h1
          | cons p ps' =>
              simp only [emitAux, List.cons_append, List.append_eq] at h1 ⊢
              obtain ⟨r, hr, hmap⟩ := Option.map_eq_some'.1 h1
              obtain ⟨rfl, rfl⟩ := Prod.mk.injEq .. ▸ hmap
              rw [ih hr h2]
              rfl
      | quadTo =>
          match ps with
          | [] => simp [emitAux] at h1
          | [p1] => simp [emitAux] at h1
          | p1 :: p :: ps' =>
              simp only [emitAux, List.cons_append, List.append_eq] at h1 ⊢
              obtain ⟨r, hr, hmap⟩ := Option.map_eq_some'.1 h1
              obtain ⟨rfl, rfl⟩ := Prod.mk.injEq .. ▸ hmap
              rw [ih hr h2]
              rfl
      | curveTo =>
          match ps with
          | [] => simp [emitAux] at h1
          | [p1] => simp [emitAux] at h1
          | [p1, p2] => simp [emitAux] at h1
          | p1 :: p2 :: p :: ps' =>
              simp only [emitAux, List.cons_append, List.append_eq] at h1 ⊢
              obtain ⟨r, hr, hmap⟩ := Option.map_eq_some'.1 h1
              obtain ⟨rfl, rfl⟩ := Prod.mk.injEq .. ▸ hmap
              rw [ih hr h2]
              rfl
      | close =>
          simp only [emitAux, List.cons_append, List.append_eq] at h1 ⊢
          obtain ⟨r, hr, hmap⟩ := Option.map_eq_some'.1 h1
          obtain ⟨rfl, rfl⟩ := Prod.mk.injEq .. ▸ hmap
          rw [ih hr h2]
          rfl

theorem emitAux_single (cmd : PathCmd) :
    emitAux [cmdVerb cmd] (cmdPoints cmd) = some ([cmd], []) := by
  cases cmd <;> rfl

theorem record_foldl_inv (cff : Bool) (cmds : List PathCmd) :
    RecWF (cmds.foldl record1 (initRec cff)) ∧
      (cmds.foldl record1 (initRec cff)).outline.bboxCache = none ∧
      (cmds.foldl record1 (initRec cff)).outline.cff = cff ∧
      emitAux (cmds.foldl record1 (initRec cff)).outline.flatVerbs
        (cmds.foldl record1 (initRec cff)).outline.flatPoints = some (cmds, []) := by
  induction cmds using List.reverseRecOn with
  | nil =>
      refine ⟨⟨le_refl 1, Or.inl rfl⟩, rfl, rfl, rfl⟩
  | append_singleton cmds cmd ih =>
      obtain ⟨hwf, hcache, hcff, hemit⟩ := ih
      rw [List.foldl_append]
      simp only [List.foldl_cons, List.foldl_nil]
      obtain ⟨hv, hp, hc, hf, hwf'⟩ := record1_flat hwf cmd
      refine ⟨hwf', by rw [hc, hcache], by rw [hf, hcff], ?_⟩
      rw [hv, hp]
      exact emitAux_append_verbs (emitAux_extend_pts (cmdPoints cmd) hemit)
        (emitAux_single cmd)

/-- Claim C3 (confirmed): recording any finite sequence of path-sink calls
    into a fresh Outline through the recorder and then emitting with no
    intervening mutation replays exactly the same verb sequence with exactly
    the same point coordinates. -/
theorem claimC3_record_emit_roundtrip (cff : Bool) (cmds : List PathCmd) :
    (recordPath cff cmds).emit = some cmds := by
  obtain ⟨_, _, _, hemit⟩ := record_foldl_inv cff cmds
  unfold recordPath Outline.emit
  rw [hemit]

/-! ### Shape preservation of the embolden sweep -/

theorem translateRun_length (strength : ℚ) (shift : Point) (last : Nat) :
    ∀ (fuel i j : Nat) (pts : List Point),
      (translateRun strength shift last fuel i j pts).2.length = pts.length := by
  intro fuel
  induction fuel with
  | zero => intro i j pts; rfl
  | succ fuel ih =>
      intro i j pts
      unfold translateRun
      by_cases h : i = j
      · simp [h]
      · simp only [h, if_neg, not_false_iff]
        rw [ih]
        simp

theorem translateRun_fst_le (strength : ℚ) (shift : Point) (last : Nat) :
    ∀ (fuel i j : Nat) (pts : List Point), i ≤ last →
      (translateRun strength shift last fuel i j pts).1 ≤ last := by
  intro fuel
  induction fuel with
  | zero => intro i j pts h; exact h
  | succ fuel ih =>
      intro i j pts h
      unfold translateRun
      by_cases hij : i = j
      · rw [if_pos hij]
        omega
      · rw [if_neg hij]
        refine ih _ _ _ ?_
        unfold circNext
        split <;> omega

theorem sweepBody_pts_length (cff : Bool) (strength : ℚ) (last : Nat)
    (s : SweepState) (outPt : Point) (outLen : ℚ) :
    (sweepBody cff strength last s outPt outLen).pts.length = s.pts.length := by
  unfold sweepBody
  by_cases h : s.inLen ≠ 0
  · rw [if_pos h]
    exact translateRun_length ..
  · rw [if_neg h]

theorem sweepStep_pts_length (cff : Bool) (sqrtFn : ℚ → ℚ) (strength : ℚ)
    (last : Nat) (s : SweepState) :
    (sweepStep cff sqrtFn strength last s).pts.length = s.pts.length := by
  unfold sweepStep
  by_cases h1 : some s.j ≠ s.k
  · rw [if_pos h1]
    by_cases h2 : edgeLen sqrtFn s ≠ 0
    · rw [if_pos h2]
      exact sweepBody_pts_length ..
    · rw [if_neg h2]
  · rw [if_neg h1]
    exact sweepBody_pts_length ..

theorem sweepLoop_pts_length (cff : Bool) (sqrtFn : ℚ → ℚ) (strength : ℚ)
    (last : Nat) :
    ∀ (fuel : Nat) (s : SweepState),
      (sweepLoop cff sqrtFn strength last fuel s).2.pts.length = s.pts.length := by
  intro fuel
  induction fuel with
  | zero => intro s; rfl
  | succ fuel ih =>
      intro s
      unfold sweepLoop
      by_cases h : sweepDone s = true
      · rw [if_pos h]
      · rw [if_neg h, ih, sweepStep_pts_length]

theorem contourSweep_pts_length (cff : Bool) (sqrtFn : ℚ → ℚ) (strength : ℚ)
    (c : Contour) :
    (contourSweep cff sqrtFn strength c).2.pts.length = c.points.length := by
  unfold contourSweep
  rw [sweepLoop_pts_length]

theorem emboldenContour_verbs (cff : Bool) (sqrtFn : ℚ → ℚ) (strength : ℚ)
    (c : Contour) : (emboldenContour cff sqrtFn strength c).verbs = c.verbs := by
  unfold emboldenContour
  by_cases h : c.points.length = 0
  · rw [if_pos h]
  · rw [if_neg h]
    by_cases hcl : contourClosed c
    · rw [if_pos hcl]
    · rw [if_neg hcl]

theorem emboldenContour_pts_length (cff : Bool) (sqrtFn : ℚ → ℚ) (strength : ℚ)
    (c : Contour) :
    (emboldenContour cff sqrtFn strength c).points.length = c.points.length := by
  unfold emboldenContour
  by_cases h : c.points.length = 0
  · rw [if_pos h]
  · rw [if_neg h]
    by_cases hcl : contourClosed c
    · rw [if_pos hcl]
      show (List.set _ _ _).length = _
      rw [List.length_set, contourSweep_pts_length]
    · rw [if_neg hcl]
      exact contourSweep_pts_length ..

/-! ### Claim C4 -/

/-- The closure of a closed contour survives emboldening: the final
    resynchronisation overwrites the last point with the first. -/
theorem emboldenContour_closed {c : Contour} (cff : Bool) (sqrtFn : ℚ → ℚ)
    (strength : ℚ) (h1 : 1 < c.points.length)
    (h2 : c.points.getLast? = c.points.head?) :
    (emboldenContour cff sqrtFn strength c).points.getLast? =
      (emboldenContour cff sqrtFn strength c).points.head? := by
  have hn0 : ¬ c.points.length = 0 := by omega
  have hcl : contourClosed c := ⟨h1, h2⟩
  unfold emboldenContour
  rw [if_neg hn0, if_pos hcl]
  set pts := (contourSweep cff sqrtFn strength c).2.pts with hpts
  have hlen : pts.length = c.points.length := contourSweep_pts_length ..
  show (pts.set (c.points.length - 1) (pts.getD 0 Point.zero)).getLast? =
    (pts.set (c.points.length - 1) (pts.getD 0 Point.zero)).head?
  rw [List.getLast?_eq_getElem?, List.head?_eq_getElem?, List.length_set, hlen]
  have hne : c.points.length - 1 ≠ 0 := by omega
  rw [List.getElem?_set_self (by omega), List.getElem?_set_ne hne]
  have h0 : pts[0]? = some (pts.getD 0 Point.zero) := by
    have hpos : 0 < pts.length := by omega
    cases hp : pts with
    | nil => rw [hp] at hpos; simp at hpos
    | cons a t => simp [List.getD]
  rw [h0]

/-- Claim C4 (confirmed): every contour that is closed in the Rust sense
    (more than one point and first point equal to last point) still has its
    first point exactly equal to its last point after embolden(s), for every
    outline, every strength, and in fact every model of the square root. -/
theorem claimC4_closure_preserved (o : Outline) (strength : ℚ) (ci : Nat)
    (c : Contour) (hc : o.contours[ci]? = some c) (h1 : 1 < c.points.length)
    (h2 : c.points.getLast? = c.points.head?) :
    ∃ c', (o.embolden strength).contours[ci]? = some c' ∧
      1 < c'.points.length ∧ c'.points.getLast? = c'.points.head? := by
  refine ⟨emboldenContour o.cff rsqrt strength c, ?_, ?_, ?_⟩
  · unfold Outline.embolden Outline.emboldenWith
    simp only [List.getElem?_map, hc, Option.map_some']
  · rw [emboldenContour_pts_length]
    exact h1
  · exact emboldenContour_closed o.cff rsqrt strength h1 h2

/-- Witness for C4: the closed unit-square contour at strength 3. -/
def squarePts : List Point := [⟨0, 0⟩, ⟨10, 0⟩, ⟨10, 10⟩, ⟨0, 10⟩, ⟨0, 0⟩]

def squareContour : Contour :=
  ⟨[.moveTo, .lineTo, .lineTo, .lineTo, .close], squarePts⟩

def squareOutlineTtf : Outline := ⟨none, false, [squareContour]⟩

theorem claimC4_witness :
    (squareOutlineTtf.contours[0]? = some squareContour ∧
        1 < squareContour.points.length ∧
        squareContour.points.getLast? = squareContour.points.head?) ∧
      (∃ c', (squareOutlineTtf.embolden 3).contours[0]? = some c' ∧
        1 < c'.points.length ∧ c'.points.getLast? = c'.points.head?) :=
  ⟨⟨rfl, by decide, by decide⟩,
    claimC4_closure_preserved squareOutlineTtf 3 0 squareContour rfl
      (by decide) (by decide)⟩

/-! ### Operation sequences over an Outline -/

/-- The operations a caller can apply to a constructed Outline: the two
    mutators and a bbox read (which reads or fills only the cache cell). -/
inductive OutlineOp where
  | embolden (strength : ℚ)
  | oblique (x_skew : ℚ)
  | bboxRead
deriving DecidableEq, Repr

def applyOp (o : Outline) : OutlineOp → Outline
  | .embolden s => o.embolden s
  | .oblique k => o.oblique k
  | .bboxRead => (o.bbox).2

def applyOps (o : Outline) (ops : List OutlineOp) : Outline :=
  ops.foldl applyOp o

theorem bbox_snd_contours (o : Outline) :
    (o.bbox).2.contours = o.contours ∧ (o.bbox).2.cff = o.cff := by
  unfold Outline.bbox
  cases o.bboxCache <;> exact ⟨rfl, rfl⟩

theorem embolden_shape (o : Outline) (s : ℚ) :
    (o.embolden s).contours.map Contour.verbs = o.contours.map Contour.verbs ∧
      (o.embolden s).contours.map (fun c => c.points.length) =
        o.contours.map (fun c => c.points.length) ∧
      (o.embolden s).cff = o.cff := by
  unfold Outline.embolden Outline.emboldenWith
  refine ⟨?_, ?_, rfl⟩
  · rw [List.map_map]
    exact List.map_congr_left fun c _ => emboldenContour_verbs ..
  · rw [List.map_map]
    exact List.map_congr_left fun c _ => emboldenContour_pts_length ..

theorem oblique_shape (o : Outline) (k : ℚ) :
    (o.oblique k).contours.map Contour.verbs = o.contours.map Contour.verbs ∧
      (o.oblique k).contours.map (fun c => c.points.length) =
        o.contours.map (fun c => c.points.length) ∧
      (o.oblique k).cff = o.cff := by
  unfold Outline.oblique
  refine ⟨?_, ?_, rfl⟩
  · rw [List.map_map]
    exact List.map_congr_left fun c _ => rfl
  · rw [List.map_map]
    exact List.map_congr_left fun c _ => by simp

theorem applyOp_shape (o : Outline) (op : OutlineOp) :
    (applyOp o op).contours.map Contour.verbs = o.contours.map Contour.verbs ∧
      (applyOp o op).contours.map (fun c => c.points.length) =
        o.contours.map (fun c => c.points.length) := by
  cases op with
  | embolden s => exact ⟨(embolden_shape o s).1, (embolden_shape o s).2.1⟩
  | oblique k => exact ⟨(oblique_shape o k).1, (oblique_shape o k).2.1⟩
  | bboxRead =>
      rw [applyOp, (bbox_snd_contours o).1]
      exact ⟨rfl, rfl⟩

theorem applyOps_shape (ops : List OutlineOp) (o : Outline) :
    (applyOps o ops).contours.map Contour.verbs = o.contours.map Contour.verbs ∧
      (applyOps o ops).contours.map (fun c => c.points.length) =
        o.contours.map (fun c => c.points.length) := by
  induction ops generalizing o with
  | nil => exact ⟨rfl, rfl⟩
  | cons op ops ih =>
      obtain ⟨h1, h2⟩ := applyOp_shape o op
      obtain ⟨h1', h2'⟩ := ih (applyOp o op)
      exact ⟨h1'.trans h1, h2'.trans h2⟩

theorem flatVerbs_of_shape {o o' : Outline}
    (h : o'.contours.map Contour.verbs = o.contours.map Contour.verbs) :
    o'.flatVerbs = o.flatVerbs := by
  unfold Outline.flatVerbs
  rw [h]

theorem flatPoints_length_of_shape {o o' : Outline}
    (h : o'.contours.map (fun c => c.points.length) =
      o.contours.map (fun c => c.points.length)) :
    o'.flatPoints.length = o.flatPoints.length := by
  unfold Outline.flatPoints
  rw [List.length_flatten, List.length_flatten, List.map_map, List.map_map]
  exact congrArg List.sum h

/-- Success of the emit cursor depends only on the number of points, not on
    their values. -/
theorem emitAux_length_congr :
    ∀ (vs : List PathVerb) (pts pts' : List Point) (l : List PathCmd)
      (rest : List Point), pts.length = pts'.length →
      emitAux vs pts = some (l, rest) →
      ∃ l' rest', emitAux vs pts' = some (l', rest') ∧
        rest.length = rest'.length := by
  intro vs
  induction vs with
  | nil =>
      intro pts pts' l rest hlen h
      simp only [emitAux] at h
      obtain ⟨rfl, rfl⟩ := Prod.mk.injEq .. ▸ (Option.some.injEq .. ▸ h)
      exact ⟨[], pts', rfl, hlen⟩
  | cons v vs ih =>
      intro pts pts' l rest hlen h
      cases v with
      | moveTo =>
          match pts, pts' with
          | [], _ => simp [emitAux] at h
          | _ :: _, [] => simp at hlen
          | p :: t, p' :: t' =>
              simp only [emitAux] at h ⊢
              obtain ⟨r, hr, hmap⟩ := Option.map_eq_some'.1 h
              obtain ⟨rfl, rfl⟩ := Prod.mk.injEq .. ▸ hmap
              obtain ⟨l2, r2, h2, hr2⟩ := ih t t' r.1 r.2 (by simpa using hlen) hr
              exact ⟨_, _, by rw [h2]; rfl, hr2⟩
      | lineTo =>
          match pts, pts' with
          | [], _ => simp [emitAux] at h
          | _ :: _, [] => simp at hlen
          | p :: t, p' :: t' =>
              simp only [emitAux] at h ⊢
              obtain ⟨r, hr, hmap⟩ := Option.map_eq_some'.1 h
              obtain ⟨rfl, rfl⟩ := Prod.mk.injEq .. ▸ hmap
              obtain ⟨l2, r2, h2, hr2⟩ := ih t t' r.1 r.2 (by simpa using hlen) hr
              exact ⟨_, _, by rw [h2]; rfl, hr2⟩
      | quadTo =>
          match pts, pts' with
          | [], _ => simp [emitAux] at h
          | [_], _ => simp [emitAux] at h
          | _ :: _ :: _, [] => simp at hlen
          | _ :: _ :: _, [_] => simp at hlen
          | p1 :: p :: t, p1' :: p' :: t' =>
              simp only [emitAux] at h ⊢
              obtain ⟨r, hr, hmap⟩ := Option.map_eq_some'.1 h
              obtain ⟨rfl, rfl⟩ := Prod.mk.injEq .. ▸ hmap
              obtain ⟨l2, r2, h2, hr2⟩ := ih t t' r.1 r.2 (by simpa using hlen) hr
              exact ⟨_, _, by rw [h2]; rfl, hr2⟩
      | curveTo =>
          match pts, pts' with
          | [], _ => simp [emitAux] at h
          | [_], _ => simp [emitAux] at h
          | [_, _], _ => simp [emitAux] at h
          | _ :: _ :: _ :: _, [] => simp at hlen
          | _ :: _ :: _ :: _, [_] => simp at hlen
          | _ :: _ :: _ :: _, [_, _] => simp at hlen
          | p1 :: p2 :: p :: t, p1' :: p2' :: p' :: t' =>
              simp only [emitAux] at h ⊢
              obtain ⟨r, hr, hmap⟩ := Option.map_eq_some'.1 h
              obtain ⟨rfl, rfl⟩ := Prod.mk.injEq .. ▸ hmap
              obtain ⟨l2, r2, h2, hr2⟩ := ih t t' r.1 r.2 (by simpa using hlen) hr
              exact ⟨_, _, by rw [h2]; rfl, hr2⟩
      | close =>
          simp only [emitAux] at h ⊢
          obtain ⟨r, hr, hmap⟩ := Option.map_eq_some'.1 h
          obtain ⟨rfl, rfl⟩ := Prod.mk.injEq .. ▸ hmap
          obtain ⟨l2, r2, h2, hr2⟩ := ih pts pts' r.1 r.2 hlen hr
          exact ⟨_, _, by rw [h2]; rfl, hr2⟩

/-! ### Claim C10 -/

/-- Claim C10 (confirmed): embolden and oblique mutate only point
    coordinates: contour count, each contour's verb sequence and each
    contour's point count are unchanged by either operation (and by bbox
    reads); consequently the arity invariant established by the recorder is
    preserved and emit never exhausts its point cursor on a recorded outline
    mutated by any sequence of operations. -/
theorem claimC10_frame :
    (∀ (o : Outline) (s : ℚ),
        (o.embolden s).contours.map Contour.verbs = o.contours.map Contour.verbs ∧
          (o.embolden s).contours.map (fun c => c.points.length) =
            o.contours.map (fun c => c.points.length)) ∧
      (∀ (o : Outline) (k : ℚ),
        (o.oblique k).contours.map Contour.verbs = o.contours.map Contour.verbs ∧
          (o.oblique k).contours.map (fun c => c.points.length) =
            o.contours.map (fun c => c.points.length)) ∧
      (∀ (cff : Bool) (cmds : List PathCmd) (ops : List OutlineOp),
        (applyOps (recordPath cff cmds) ops).emit.isSome = true) := by
  refine ⟨fun o s => ⟨(embolden_shape o s).1, (embolden_shape o s).2.1⟩,
    fun o k => ⟨(oblique_shape o k).1, (oblique_shape o k).2.1⟩, ?_⟩
  intro cff cmds ops
  obtain ⟨_, _, _, hemit⟩ := record_foldl_inv cff cmds
  obtain ⟨hverbs, hlen⟩ := applyOps_shape ops (recordPath cff cmds)
  obtain ⟨l', rest', h', _⟩ := emitAux_length_congr (recordPath cff cmds).flatVerbs
    (recordPath cff cmds).flatPoints (applyOps (recordPath cff cmds) ops).flatPoints
    cmds [] (flatPoints_length_of_shape hlen).symm hemit
  unfold Outline.emit
  rw [flatVerbs_of_shape hverbs, h']
  rfl

/-! ### Claim C9 -/

/-- The bbox cache is either empty or holds exactly the recomputed box. -/
def cacheConsistent (o : Outline) : Prop :=
  ∀ b, o.bboxCache = some b → b = o.computeBBox

theorem computeBBox_congr {o o' : Outline} (h : o'.contours = o.contours) :
    o'.computeBBox = o.computeBBox := by
  unfold Outline.computeBBox Outline.flatPoints
  rw [h]

/-- After a bbox call the cache is unchanged or freshly filled with the
    recomputed box. -/
theorem bbox_snd_cache (o : Outline) :
    (o.bbox).2.bboxCache = o.bboxCache ∨
      ((o.bbox).2.bboxCache = some o.computeBBox ∧ o.bboxCache = none) := by
  unfold Outline.bbox
  cases hc : o.bboxCache with
  | some b => exact Or.inl hc
  | none => exact Or.inr ⟨rfl, rfl⟩

theorem bbox_fst_of_consistent {o : Outline} (h : cacheConsistent o) :
    (o.bbox).1 = o.computeBBox := by
  unfold Outline.bbox
  cases hc : o.bboxCache with
  | none => rfl
  | some b => exact h b hc

theorem applyOp_consistent {o : Outline} (h : cacheConsistent o)
    (op : OutlineOp) : cacheConsistent (applyOp o op) := by
  cases op with
  | embolden s =>
      intro b hb
      simp [applyOp, Outline.embolden, Outline.emboldenWith] at hb
  | oblique k =>
      intro b hb
      simp [applyOp, Outline.oblique] at hb
  | bboxRead =>
      have hcon : (o.bbox).2.computeBBox = o.computeBBox :=
        computeBBox_congr (bbox_snd_contours o).1
      intro b hb
      replace hb : (o.bbox).2.bboxCache = some b := hb
      show b = (o.bbox).2.computeBBox
      rw [hcon]
      rcases bbox_snd_cache o with hcc | ⟨hcc, _⟩
      · exact h b (by rw [← hcc]; exact hb)
      · rw [hb] at hcc
        exact Option.some.inj hcc

theorem applyOps_consistent {o : Outline} (h : cacheConsistent o)
    (ops : List OutlineOp) : cacheConsistent (applyOps o ops) := by
  induction ops generalizing o with
  | nil => exact h
  | cons op ops ih => exact ih (applyOp_consistent h op)

theorem recordPath_consistent (cff : Bool) (cmds : List PathCmd) :
    cacheConsistent (recordPath cff cmds) := by
  intro b hb
  obtain ⟨_, hcache, _, _⟩ := record_foldl_inv cff cmds
  rw [recordPath] at hb
  rw [hcache] at hb
  exact absurd hb (by simp)

/-- Claim C9 (confirmed): the lazily cached bbox is observationally
    equivalent to recomputing on every call: after any sequence of
    embolden/oblique mutations and bbox reads applied to a recorded outline,
    the next bbox() call returns exactly the box recomputed from the current
    points, and an immediately repeated bbox() call returns the same value. -/
theorem claimC9_bbox_cache_transparent (cff : Bool) (cmds : List PathCmd)
    (ops : List OutlineOp) :
    ((applyOps (recordPath cff cmds) ops).bbox).1 =
        (applyOps (recordPath cff cmds) ops).computeBBox ∧
      (((applyOps (recordPath cff cmds) ops).bbox).2.bbox).1 =
        ((applyOps (recordPath cff cmds) ops).bbox).1 := by
  have hcons := applyOps_consistent (recordPath_consistent cff cmds) ops
  have hsnd : cacheConsistent ((applyOps (recordPath cff cmds) ops).bbox).2 :=
    applyOp_consistent hcons OutlineOp.bboxRead
  refine ⟨bbox_fst_of_consistent hcons, ?_⟩
  rw [bbox_fst_of_consistent hsnd, bbox_fst_of_consistent hcons]
  exact computeBBox_congr (bbox_snd_contours _).1

/-! ### Claim C5: embolden(0) is the identity on geometry -/

theorem rsqrt_nonneg (q : ℚ) : 0 ≤ rsqrt q := by
  unfold rsqrt
  split
  · exact le_refl 0
  · positivity

theorem set_getD_self (l : List α) (i : Nat) (d : α) :
    l.set i (l.getD i d) = l := by
  induction l generalizing i with
  | nil => rfl
  | cons a t ih =>
      cases i with
      | zero => rfl
      | succ n =>
          show a :: t.set n (t.getD n d) = a :: t
          rw [ih]

theorem sweepShift_zero (cff : Bool) (inPt : Point) (inLen : ℚ) (outPt : Point)
    (outLen : ℚ) (h1 : 0 ≤ inLen) (h2 : 0 ≤ outLen) :
    sweepShift cff 0 inPt inLen outPt outLen = Point.zero := by
  unfold sweepShift
  by_cases hd : inPt.x * outPt.x + inPt.y * outPt.y > -(15 / 16 : ℚ)
  · rw [if_pos hd, if_pos ?hcond]
    case hcond =>
      rw [zero_mul]
      have hd1 : (0 : ℚ) ≤ inPt.x * outPt.x + inPt.y * outPt.y + 1 := by linarith
      exact mul_nonneg (le_min h1 h2) hd1
    show (⟨_ * 0 / _, _ * 0 / _⟩ : Point) = Point.zero
    rw [mul_zero, mul_zero, zero_div, Point.zero]
  · rw [if_neg hd]

theorem translateRun_zero (last : Nat) :
    ∀ (fuel i j : Nat) (pts : List Point),
      (translateRun 0 Point.zero last fuel i j pts).2 = pts := by
  intro fuel
  induction fuel with
  | zero => intro i j pts; rfl
  | succ fuel ih =>
      intro i j pts
      unfold translateRun
      by_cases hij : i = j
      · rw [if_pos hij]
      · rw [if_neg hij, ih]
        have hpt : (⟨(pts.getD i Point.zero).x + 0 + Point.zero.x,
            (pts.getD i Point.zero).y + 0 + Point.zero.y⟩ : Point) =
            pts.getD i Point.zero := by
          show (⟨(pts.getD i Point.zero).x + 0 + 0,
            (pts.getD i Point.zero).y + 0 + 0⟩ : Point) = _
          rw [add_zero, add_zero, add_zero, add_zero]
        rw [hpt, set_getD_self]

theorem sweepBody_zero_pts (cff : Bool) (last : Nat) (s : SweepState)
    (outPt : Point) (outLen : ℚ) (h1 : 0 ≤ s.inLen) (h2 : 0 ≤ outLen) :
    (sweepBody cff 0 last s outPt outLen).pts = s.pts := by
  unfold sweepBody
  by_cases h : s.inLen ≠ 0
  · rw [if_pos h]
    show (translateRun 0 (sweepShift cff 0 s.inPt s.inLen outPt outLen)
      last (last + 1) s.i s.j s.pts).2 = s.pts
    rw [sweepShift_zero cff s.inPt s.inLen outPt outLen h1 h2,
      translateRun_zero]
  · rw [if_neg h]

theorem sweepBody_nn (cff : Bool) (strength : ℚ) (last : Nat) (s : SweepState)
    (outPt : Point) (outLen : ℚ) (h1 : 0 ≤ s.inLen) (h2 : 0 ≤ s.anchorLen)
    (h3 : 0 ≤ outLen) :
    0 ≤ (sweepBody cff strength last s outPt outLen).inLen ∧
      0 ≤ (sweepBody cff strength last s outPt outLen).anchorLen := by
  unfold sweepBody
  by_cases h : s.inLen ≠ 0
  · rw [if_pos h]
    refine ⟨h3, ?_⟩
    show 0 ≤ (if s.k = none then s.inLen else s.anchorLen)
    by_cases hk : s.k = none
    · rw [if_pos hk]
      exact h1
    · rw [if_neg hk]
      exact h2
  · rw [if_neg h]
    exact ⟨h3, h2⟩

theorem sweepStep_zero (cff : Bool) (last : Nat) (s : SweepState)
    (h1 : 0 ≤ s.inLen) (h2 : 0 ≤ s.anchorLen) :
    (sweepStep cff rsqrt 0 last s).pts = s.pts ∧
      0 ≤ (sweepStep cff rsqrt 0 last s).inLen ∧
      0 ≤ (sweepStep cff rsqrt 0 last s).anchorLen := by
  unfold sweepStep
  by_cases ha : some s.j ≠ s.k
  · rw [if_pos ha]
    by_cases hl : edgeLen rsqrt s ≠ 0
    · rw [if_pos hl]
      have hnn : 0 ≤ edgeLen rsqrt s := rsqrt_nonneg _
      exact ⟨sweepBody_zero_pts cff last s _ _ h1 hnn,
        (sweepBody_nn cff 0 last s _ _ h1 h2 hnn).1,
        (sweepBody_nn cff 0 last s _ _ h1 h2 hnn).2⟩
    · rw [if_neg hl]
      exact ⟨rfl, h1, h2⟩
  · rw [if_neg ha]
    exact ⟨sweepBody_zero_pts cff last s _ _ h1 h2,
      (sweepBody_nn cff 0 last s _ _ h1 h2 h2).1,
      (sweepBody_nn cff 0 last s _ _ h1 h2 h2).2⟩

theorem sweepLoop_zero (cff : Bool) (last : Nat) :
    ∀ (fuel : Nat) (s : SweepState), 0 ≤ s.inLen → 0 ≤ s.anchorLen →
      (sweepLoop cff rsqrt 0 last fuel s).2.pts = s.pts := by
  intro fuel
  induction fuel with
  | zero => intro s _ _; rfl
  | succ fuel ih =>
      intro s h1 h2
      unfold sweepLoop
      by_cases hdone : sweepDone s = true
      · rw [if_pos hdone]
      · rw [if_neg hdone]
        obtain ⟨hp, hn1, hn2⟩ := sweepStep_zero cff last s h1 h2
        rw [ih _ hn1 hn2, hp]

theorem emboldenContour_zero (cff : Bool) (c : Contour) :
    emboldenContour cff rsqrt 0 c = c := by
  unfold emboldenContour
  by_cases h0 : c.points.length = 0
  · rw [if_pos h0]
  · rw [if_neg h0]
    have hsw : (contourSweep cff rsqrt 0 c).2.pts = c.points := by
      unfold contourSweep
      exact sweepLoop_zero cff (sweepLast c) _ _ (le_refl 0) (le_refl 0)
    by_cases hcl : contourClosed c
    · rw [if_pos hcl, hsw]
      have hlen : 0 < c.points.length := by omega
      have hidx : c.points[c.points.length - 1]? = c.points[0]? := by
        rw [← List.getLast?_eq_getElem?, ← List.head?_eq_getElem?]
        exact hcl.2
      have hgd : c.points.getD 0 Point.zero =
          c.points.getD (c.points.length - 1) Point.zero := by
        rw [List.getD_eq_getElem?_getD, List.getD_eq_getElem?_getD, hidx]
      rw [hgd, set_getD_self]
    · rw [if_neg hcl, hsw]

/-- Claim C5 (confirmed): embolden(0.0) changes no point coordinate at all:
    every corner shift degenerates to zero and every run translation adds
    zero, and the final closure resynchronisation overwrites the last point
    of a closed contour with the first, which it already equals; so the
    contour list is unchanged exactly. -/
theorem claimC5_embolden_zero_identity (o : Outline) :
    (o.embolden 0).contours = o.contours := by
  unfold Outline.embolden Outline.emboldenWith
  show o.contours.map (emboldenContour o.cff rsqrt 0) = o.contours
  have : ∀ c ∈ o.contours, emboldenContour o.cff rsqrt 0 c = c :=
    fun c _ => emboldenContour_zero o.cff c
  rw [List.map_congr_left this, List.map_id']

/-! ### Claim C8: winding flag mirrors the lateral shift on the square -/

def squareOutlineCff : Outline := ⟨none, true, [squareContour]⟩


/-- One unfolding of the fueled sweep loop. -/
theorem sweepLoop_succ (cff : Bool) (sqrtFn : ℚ → ℚ) (strength : ℚ)
    (last fuel : Nat) (s : SweepState) :
    sweepLoop cff sqrtFn strength last (fuel + 1) s =
      if sweepDone s = true then (true, s)
      else sweepLoop cff sqrtFn strength last fuel
        (sweepStep cff sqrtFn strength last s) := rfl

theorem sqT0 :
    sweepStep false rsqrt 1 3 ⟨3, 0, none, Point.zero, 0, Point.zero, 0, squarePts⟩ =
      ⟨0, 1, none, ⟨0, -1⟩, 10, Point.zero, 0, squarePts⟩ := by
  norm_num [sweepStep, sweepBody, sweepShift, shiftQ, shiftXY, edgeX, edgeY,
    edgeLen, rsqrt, natSqrt, natSqrtAux, translateRun, circNext, squarePts,
    Point.zero]
  all_goals decide

theorem sqT1 :
    sweepStep false rsqrt 1 3 ⟨0, 1, none, ⟨0, -1⟩, 10, Point.zero, 0, squarePts⟩ =
      ⟨1, 2, some 0, ⟨1, 0⟩, 10, ⟨0, -1⟩, 10,
        [⟨2, 2⟩, ⟨10, 0⟩, ⟨10, 10⟩, ⟨0, 10⟩, ⟨0, 0⟩]⟩ := by
  norm_num [sweepStep, sweepBody, sweepShift, shiftQ, shiftXY, edgeX, edgeY,
    edgeLen, rsqrt, natSqrt, natSqrtAux, translateRun, circNext, squarePts,
    Point.zero]
  all_goals decide

theorem sqT2 :
    sweepStep false rsqrt 1 3 ⟨1, 2, some 0, ⟨1, 0⟩, 10, ⟨0, -1⟩, 10,
        [⟨2, 2⟩, ⟨10, 0⟩, ⟨10, 10⟩, ⟨0, 10⟩, ⟨0, 0⟩]⟩ =
      ⟨2, 3, some 0, ⟨0, 1⟩, 10, ⟨0, -1⟩, 10,
        [⟨2, 2⟩, ⟨10, 2⟩, ⟨10, 10⟩, ⟨0, 10⟩, ⟨0, 0⟩]⟩ := by
  norm_num [sweepStep, sweepBody, sweepShift, shiftQ, shiftXY, edgeX, edgeY,
    edgeLen, rsqrt, natSqrt, natSqrtAux, translateRun, circNext, squarePts,
    Point.zero]
  all_goals decide

theorem sqT3 :
    sweepStep false rsqrt 1 3 ⟨2, 3, some 0, ⟨0, 1⟩, 10, ⟨0, -1⟩, 10,
        [⟨2, 2⟩, ⟨10, 2⟩, ⟨10, 10⟩, ⟨0, 10⟩, ⟨0, 0⟩]⟩ =
      ⟨3, 0, some 0, ⟨-1, 0⟩, 10, ⟨0, -1⟩, 10,
        [⟨2, 2⟩, ⟨10, 2⟩, ⟨10, 10⟩, ⟨0, 10⟩, ⟨0, 0⟩]⟩ := by
  norm_num [sweepStep, sweepBody, sweepShift, shiftQ, shiftXY, edgeX, edgeY,
    edgeLen, rsqrt, natSqrt, natSqrtAux, translateRun, circNext, squarePts,
    Point.zero]
  all_goals decide

theorem sqT4 :
    sweepStep false rsqrt 1 3 ⟨3, 0, some 0, ⟨-1, 0⟩, 10, ⟨0, -1⟩, 10,
        [⟨2, 2⟩, ⟨10, 2⟩, ⟨10, 10⟩, ⟨0, 10⟩, ⟨0, 0⟩]⟩ =
      ⟨0, 1, some 0, ⟨0, -1⟩, 10, ⟨0, -1⟩, 10,
        [⟨2, 2⟩, ⟨10, 2⟩, ⟨10, 10⟩, ⟨2, 10⟩, ⟨0, 0⟩]⟩ := by
  norm_num [sweepStep, sweepBody, sweepShift, shiftQ, shiftXY, edgeX, edgeY,
    edgeLen, rsqrt, natSqrt, natSqrtAux, translateRun, circNext, squarePts,
    Point.zero]
  all_goals decide

theorem sqC0 :
    sweepStep true rsqrt 1 3 ⟨3, 0, none, Point.zero, 0, Point.zero, 0, squarePts⟩ =
      ⟨0, 1, none, ⟨0, -1⟩, 10, Point.zero, 0, squarePts⟩ := by
  norm_num [sweepStep, sweepBody, sweepShift, shiftQ, shiftXY, edgeX, edgeY,
    edgeLen, rsqrt, natSqrt, natSqrtAux, translateRun, circNext, squarePts,
    Point.zero]
  all_goals decide

theorem sqC1 :
    sweepStep true rsqrt 1 3 ⟨0, 1, none, ⟨0, -1⟩, 10, Point.zero, 0, squarePts⟩ =
      ⟨1, 2, some 0, ⟨1, 0⟩, 10, ⟨0, -1⟩, 10, squarePts⟩ := by
  norm_num [sweepStep, sweepBody, sweepShift, shiftQ, shiftXY, edgeX, edgeY,
    edgeLen, rsqrt, natSqrt, natSqrtAux, translateRun, circNext, squarePts,
    Point.zero]
  all_goals decide

theorem sqC2 :
    sweepStep true rsqrt 1 3 ⟨1, 2, some 0, ⟨1, 0⟩, 10, ⟨0, -1⟩, 10, squarePts⟩ =
      ⟨2, 3, some 0, ⟨0, 1⟩, 10, ⟨0, -1⟩, 10,
        [⟨0, 0⟩, ⟨12, 0⟩, ⟨10, 10⟩, ⟨0, 10⟩, ⟨0, 0⟩]⟩ := by
  norm_num [sweepStep, sweepBody, sweepShift, shiftQ, shiftXY, edgeX, edgeY,
    edgeLen, rsqrt, natSqrt, natSqrtAux, translateRun, circNext, squarePts,
    Point.zero]
  all_goals decide

theorem sqC3 :
    sweepStep true rsqrt 1 3 ⟨2, 3, some 0, ⟨0, 1⟩, 10, ⟨0, -1⟩, 10,
        [⟨0, 0⟩, ⟨12, 0⟩, ⟨10, 10⟩, ⟨0, 10⟩, ⟨0, 0⟩]⟩ =
      ⟨3, 0, some 0, ⟨-1, 0⟩, 10, ⟨0, -1⟩, 10,
        [⟨0, 0⟩, ⟨12, 0⟩, ⟨12, 12⟩, ⟨0, 10⟩, ⟨0, 0⟩]⟩ := by
  norm_num [sweepStep, sweepBody, sweepShift, shiftQ, shiftXY, edgeX, edgeY,
    edgeLen, rsqrt, natSqrt, natSqrtAux, translateRun, circNext, squarePts,
    Point.zero]
  all_goals decide

theorem sqC4 :
    sweepStep true rsqrt 1 3 ⟨3, 0, some 0, ⟨-1, 0⟩, 10, ⟨0, -1⟩, 10,
        [⟨0, 0⟩, ⟨12, 0⟩, ⟨12, 12⟩, ⟨0, 10⟩, ⟨0, 0⟩]⟩ =
      ⟨0, 1, some 0, ⟨0, -1⟩, 10, ⟨0, -1⟩, 10,
        [⟨0, 0⟩, ⟨12, 0⟩, ⟨12, 12⟩, ⟨0, 12⟩, ⟨0, 0⟩]⟩ := by
  norm_num [sweepStep, sweepBody, sweepShift, shiftQ, shiftXY, edgeX, edgeY,
    edgeLen, rsqrt, natSqrt, natSqrtAux, translateRun, circNext, squarePts,
    Point.zero]
  all_goals decide

theorem sqLoopT :
    sweepLoop false rsqrt 1 3 19 ⟨3, 0, none, Point.zero, 0, Point.zero, 0, squarePts⟩ =
      (true, ⟨0, 1, some 0, ⟨0, -1⟩, 10, ⟨0, -1⟩, 10,
        [⟨2, 2⟩, ⟨10, 2⟩, ⟨10, 10⟩, ⟨2, 10⟩, ⟨0, 0⟩]⟩) := by
  rw [sweepLoop_succ, if_neg (by decide), sqT0,
    sweepLoop_succ, if_neg (by decide), sqT1,
    sweepLoop_succ, if_neg (by decide), sqT2,
    sweepLoop_succ, if_neg (by decide), sqT3,
    sweepLoop_succ, if_neg (by decide), sqT4,
    sweepLoop_succ, if_pos (by decide)]

theorem sqLoopC :
    sweepLoop true rsqrt 1 3 19 ⟨3, 0, none, Point.zero, 0, Point.zero, 0, squarePts⟩ =
      (true, ⟨0, 1, some 0, ⟨0, -1⟩, 10, ⟨0, -1⟩, 10,
        [⟨0, 0⟩, ⟨12, 0⟩, ⟨12, 12⟩, ⟨0, 12⟩, ⟨0, 0⟩]⟩) := by
  rw [sweepLoop_succ, if_neg (by decide), sqC0,
    sweepLoop_succ, if_neg (by decide), sqC1,
    sweepLoop_succ, if_neg (by decide), sqC2,
    sweepLoop_succ, if_neg (by decide), sqC3,
    sweepLoop_succ, if_neg (by decide), sqC4,
    sweepLoop_succ, if_pos (by decide)]

theorem sqEmbPtsT :
    ((squareOutlineTtf.embolden 1).contours.getD 0 default).points =
      [⟨2, 2⟩, ⟨10, 2⟩, ⟨10, 10⟩, ⟨2, 10⟩, ⟨2, 2⟩] := by
  show (emboldenContour false rsqrt 1 squareContour).points = _
  unfold emboldenContour
  rw [if_neg (by decide), if_pos (by decide)]
  have hcs : contourSweep false rsqrt 1 squareContour =
      (true, ⟨0, 1, some 0, ⟨0, -1⟩, 10, ⟨0, -1⟩, 10,
        [⟨2, 2⟩, ⟨10, 2⟩, ⟨10, 10⟩, ⟨2, 10⟩, ⟨0, 0⟩]⟩) := by
    unfold contourSweep
    rw [show sweepLast squareContour = 3 from by decide,
      show 3 * squareContour.points.length + 4 = 19 from by decide]
    exact sqLoopT
  rw [hcs]
  decide

theorem sqEmbPtsC :
    ((squareOutlineCff.embolden 1).contours.getD 0 default).points =
      [⟨0, 0⟩, ⟨12, 0⟩, ⟨12, 12⟩, ⟨0, 12⟩, ⟨0, 0⟩] := by
  show (emboldenContour true rsqrt 1 squareContour).points = _
  unfold emboldenContour
  rw [if_neg (by decide), if_pos (by decide)]
  have hcs : contourSweep true rsqrt 1 squareContour =
      (true, ⟨0, 1, some 0, ⟨0, -1⟩, 10, ⟨0, -1⟩, 10,
        [⟨0, 0⟩, ⟨12, 0⟩, ⟨12, 12⟩, ⟨0, 12⟩, ⟨0, 0⟩]⟩) := by
    unfold contourSweep
    rw [show sweepLast squareContour = 3 from by decide,
      show 3 * squareContour.points.length + 4 = 19 from by decide]
    exact sqLoopC
  rw [hcs]
  decide

/-- Claim C8 (confirmed): on the closed square contour
    (0,0),(10,0),(10,10),(0,10),(0,0), embolden(1.0) under the two winding
    flags translates each vertex by 1 on both axes (the strength-only
    component, identical in both runs) plus a lateral component of equal
    magnitude and opposite sign between the two runs. -/
theorem claimC8_winding_mirror (idx : Nat) (h : idx < 5) :
    ((((squareOutlineCff.embolden 1).contours.getD 0 default).points.getD idx
          Point.zero).x - (squarePts.getD idx Point.zero).x - 1 =
        -((((squareOutlineTtf.embolden 1).contours.getD 0 default).points.getD
          idx Point.zero).x - (squarePts.getD idx Point.zero).x - 1)) ∧
      ((((squareOutlineCff.embolden 1).contours.getD 0 default).points.getD idx
          Point.zero).y - (squarePts.getD idx Point.zero).y - 1 =
        -((((squareOutlineTtf.embolden 1).contours.getD 0 default).points.getD
          idx Point.zero).y - (squarePts.getD idx Point.zero).y - 1)) := by
  rw [sqEmbPtsT, sqEmbPtsC]
  interval_cases idx <;> norm_num [squarePts, Point.zero]

/-- Witness for C8 at the vertex of index 2, the corner (10, 10). -/
theorem claimC8_witness :
    2 < 5 ∧
      (((((squareOutlineCff.embolden 1).contours.getD 0 default).points.getD 2
            Point.zero).x - (squarePts.getD 2 Point.zero).x - 1 =
          -((((squareOutlineTtf.embolden 1).contours.getD 0 default).points.getD
            2 Point.zero).x - (squarePts.getD 2 Point.zero).x - 1)) ∧
        ((((squareOutlineCff.embolden 1).contours.getD 0 default).points.getD 2
            Point.zero).y - (squarePts.getD 2 Point.zero).y - 1 =
          -((((squareOutlineTtf.embolden 1).contours.getD 0 default).points.getD
            2 Point.zero).y - (squarePts.getD 2 Point.zero).y - 1))) :=
  ⟨by decide, claimC8_winding_mirror 2 (by decide)⟩

/-! ### Claim C7: termination of the embolden sweep -/

/-- Forward circular distance from a to b over the sweep range 0..last. -/
def cdist (last a b : Nat) : Nat :=
  (b + (last + 1) - a) % (last + 1)

theorem cdist_closed {last a b : Nat} (ha : a ≤ last) (hb : b ≤ last) :
    cdist last a b = if a ≤ b then b - a else b + (last + 1) - a := by
  unfold cdist
  by_cases hab : a ≤ b
  · rw [if_pos hab]
    have he : b + (last + 1) - a = (last + 1) + (b - a) := by omega
    rw [he, Nat.add_mod_left, Nat.mod_eq_of_lt (by omega)]
  · rw [if_neg hab]
    exact Nat.mod_eq_of_lt (by omega)

theorem cdist_le {last a b : Nat} (ha : a ≤ last) (hb : b ≤ last) :
    cdist last a b ≤ last := by
  rw [cdist_closed ha hb]
  split <;> omega

theorem cdist_pos {last a b : Nat} (ha : a ≤ last) (hb : b ≤ last)
    (hne : a ≠ b) : 1 ≤ cdist last a b := by
  rw [cdist_closed ha hb]
  split <;> omega

theorem circNext_le (last a : Nat) : circNext last a ≤ last := by
  unfold circNext
  split <;> omega

theorem cdist_circNext {last a b : Nat} (ha : a ≤ last) (hb : b ≤ last)
    (hne : a ≠ b) : cdist last (circNext last a) b = cdist last a b - 1 := by
  unfold circNext
  by_cases hlt : a < last
  · rw [if_pos hlt, cdist_closed (by omega) hb, cdist_closed ha hb]
    by_cases hab : a ≤ b
    · rw [if_pos (by omega), if_pos hab]
      omega
    · rw [if_neg (by omega), if_neg hab]
      omega
  · have haeq : a = last := by omega
    rw [if_neg hlt, cdist_closed (by omega) hb, cdist_closed ha hb]
    have hblt : b < last := by omega
    rw [if_pos (by omega), if_neg (by omega)]
    omega

theorem translateRun_fst (strength : ℚ) (shift : Point) (last : Nat) :
    ∀ (fuel i j : Nat) (pts : List Point), i ≤ last → j ≤ last →
      cdist last i j ≤ fuel →
      (translateRun strength shift last fuel i j pts).1 = j := by
  intro fuel
  induction fuel with
  | zero =>
      intro i j pts hi hj hf
      have : cdist last i j = 0 := by omega
      by_cases hij : i = j
      · exact hij
      · exact absurd this (by have := cdist_pos hi hj hij; omega)
  | succ fuel ih =>
      intro i j pts hi hj hf
      unfold translateRun
      by_cases hij : i = j
      · rw [if_pos hij]
        exact hij
      · rw [if_neg hij]
        refine ih _ _ _ (circNext_le last i) hj ?_
        rw [cdist_circNext hi hj hij]
        have := cdist_pos hi hj hij
        omega

/-- Index well-formedness of a sweep state. -/
def sweepWF (last : Nat) (s : SweepState) : Prop :=
  s.i ≤ last ∧ s.j ≤ last ∧ ∀ a, s.k = some a → a ≤ last

/-- Termination measure of the sweep: the distance of the leading index to
    the anchor once one exists, phase-weighted before that. -/
def sweepMeasure (last : Nat) (s : SweepState) : Nat :=
  match s.k with
  | some a => cdist last s.j a + 1
  | none =>
      if s.inLen = 0 then 2 * (last + 1) + cdist last s.j s.i + 2
      else (last + 1) + cdist last s.j s.i + 1

theorem sweepMeasure_pos (last : Nat) (s : SweepState) :
    1 ≤ sweepMeasure last s := by
  unfold sweepMeasure
  rcases hk : s.k with _ | a
  · show 1 ≤ if s.inLen = 0 then 2 * (last + 1) + cdist last s.j s.i + 2
      else (last + 1) + cdist last s.j s.i + 1
    split <;> omega
  · show 1 ≤ cdist last s.j a + 1
    omega

/-- What one sweep body does to the control fields. -/
theorem sweepBody_next (cff : Bool) (strength : ℚ) (last : Nat)
    (s : SweepState) (outPt : Point) (outLen : ℚ) (hi : s.i ≤ last)
    (hj : s.j ≤ last) :
    (sweepBody cff strength last s outPt outLen).i = s.j ∧
      (sweepBody cff strength last s outPt outLen).j = circNext last s.j ∧
      (sweepBody cff strength last s outPt outLen).k =
        (if s.inLen ≠ 0 ∧ s.k = none then some s.i else s.k) ∧
      (sweepBody cff strength last s outPt outLen).inLen = outLen := by
  unfold sweepBody
  by_cases h : s.inLen ≠ 0
  · rw [if_pos h]
    refine ⟨?_, rfl, ?_, rfl⟩
    · exact translateRun_fst strength _ last (last + 1) s.i s.j s.pts hi hj
        (by have := cdist_le hi hj; omega)
    · show (if s.k = none then some s.i else s.k) =
        (if s.inLen ≠ 0 ∧ s.k = none then some s.i else s.k)
      by_cases hk : s.k = none
      · rw [if_pos hk, if_pos (show s.inLen ≠ 0 ∧ s.k = none from ⟨h, hk⟩)]
      · rw [if_neg hk,
          if_neg (show ¬(s.inLen ≠ 0 ∧ s.k = none) from fun hc => hk hc.2)]
  · rw [if_neg h]
    refine ⟨rfl, rfl, ?_, rfl⟩
    show s.k = (if s.inLen ≠ 0 ∧ s.k = none then some s.i else s.k)
    rw [if_neg (show ¬(s.inLen ≠ 0 ∧ s.k = none) from fun hc => h hc.1)]

theorem sweepMeasure_of_none {last : Nat} {t : SweepState} (h : t.k = none) :
    sweepMeasure last t =
      if t.inLen = 0 then 2 * (last + 1) + cdist last t.j t.i + 2
      else (last + 1) + cdist last t.j t.i + 1 := by
  unfold sweepMeasure
  rw [h]

theorem sweepMeasure_of_some {last : Nat} {t : SweepState} {a : Nat}
    (h : t.k = some a) : sweepMeasure last t = cdist last t.j a + 1 := by
  unfold sweepMeasure
  rw [h]

theorem cdist_circNext_self {last j : Nat} (hj : j ≤ last) :
    cdist last (circNext last j) j = last := by
  unfold circNext
  by_cases hlt : j < last
  · rw [if_pos hlt, cdist_closed (by omega) hj, if_neg (by omega)]
    omega
  · rw [if_neg hlt, cdist_closed (by omega) hj, if_pos (by omega)]
    omega

/-- One sweep iteration from a live state either makes the next condition
    check terminate the loop or strictly decreases the measure, and keeps the
    state well-formed. -/
theorem sweepStep_progress (cff : Bool) (sqrtFn : ℚ → ℚ) (strength : ℚ)
    (last : Nat) (s : SweepState) (hwf : sweepWF last s)
    (hnd : ¬ sweepDone s = true) :
    sweepWF last (sweepStep cff sqrtFn strength last s) ∧
      (sweepDone (sweepStep cff sqrtFn strength last s) = true ∨
        sweepMeasure last (sweepStep cff sqrtFn strength last s) <
          sweepMeasure last s) := by
  obtain ⟨hi, hj, hk⟩ := hwf
  simp only [sweepDone, Bool.or_eq_true, decide_eq_true_eq, not_or] at hnd
  obtain ⟨hij, hki⟩ := hnd
  unfold sweepStep
  by_cases hjk : some s.j ≠ s.k
  · rw [if_pos hjk]
    by_cases hlen : edgeLen sqrtFn s ≠ 0
    · -- a valid outgoing edge was found
      rw [if_pos hlen]
      obtain ⟨hbi, hbj, hbk, hbin⟩ := sweepBody_next cff strength last s
        ⟨edgeX s / edgeLen sqrtFn s, edgeY s / edgeLen sqrtFn s⟩
        (edgeLen sqrtFn s) hi hj
      refine ⟨⟨by rw [hbi]; exact hj, by rw [hbj]; exact circNext_le last s.j, ?_⟩, ?_⟩
      · intro a ha
        rw [hbk] at ha
        by_cases hc : s.inLen ≠ 0 ∧ s.k = none
        · rw [if_pos hc] at ha
          rw [← Option.some.inj ha]
          exact hi
        · rw [if_neg hc] at ha
          exact hk a ha
      · refine Or.inr ?_
        rcases hks : s.k with _ | a
        · by_cases hin : s.inLen = 0
          · -- first valid edge of the contour
            have hkn : (sweepBody cff strength last s
                ⟨edgeX s / edgeLen sqrtFn s, edgeY s / edgeLen sqrtFn s⟩
                (edgeLen sqrtFn s)).k = none := by
              rw [hbk, if_neg (fun hc => hc.1 hin), hks]
            rw [sweepMeasure_of_none hkn, sweepMeasure_of_none hks,
              if_pos hin, hbin, if_neg hlen, hbj, hbi,
              cdist_circNext_self hj]
            have := cdist_pos hj hi (Ne.symm hij)
            omega
          · -- second valid edge: the anchor is set here
            have hks' : (sweepBody cff strength last s
                ⟨edgeX s / edgeLen sqrtFn s, edgeY s / edgeLen sqrtFn s⟩
                (edgeLen sqrtFn s)).k = some s.i := by
              rw [hbk, if_pos ⟨hin, hks⟩]
            rw [sweepMeasure_of_some hks', sweepMeasure_of_none hks,
              if_neg hin, hbj]
            have h1 : cdist last (circNext last s.j) s.i ≤ last :=
              cdist_le (circNext_le last s.j) hi
            have h2 := cdist_pos hj hi (Ne.symm hij)
            omega
        · -- anchor already set: the leading index advances toward it
          have ha : a ≤ last := hk a hks
          have hja : s.j ≠ a := fun he => hjk (by rw [he, hks])
          have hks' : (sweepBody cff strength last s
              ⟨edgeX s / edgeLen sqrtFn s, edgeY s / edgeLen sqrtFn s⟩
              (edgeLen sqrtFn s)).k = some a := by
            rw [hbk, if_neg (fun hc => by rw [hks] at hc; cases hc.2), hks]
          rw [sweepMeasure_of_some hks', sweepMeasure_of_some hks, hbj,
            cdist_circNext hj ha hja]
          have := cdist_pos hj ha hja
          omega
    · -- zero-length edge: the continue path, only the leading index moves
      rw [if_neg hlen]
      refine ⟨⟨hi, circNext_le last s.j, hk⟩, Or.inr ?_⟩
      rcases hks : s.k with _ | a
      · rw [sweepMeasure_of_none rfl, sweepMeasure_of_none hks]
        show (if s.inLen = 0 then
            2 * (last + 1) + cdist last (circNext last s.j) s.i + 2
          else (last + 1) + cdist last (circNext last s.j) s.i + 1) < _
        have hd := cdist_circNext hj hi (Ne.symm hij)
        have hp := cdist_pos hj hi (Ne.symm hij)
        by_cases hin : s.inLen = 0
        · rw [if_pos hin, if_pos hin]
          omega
        · rw [if_neg hin, if_neg hin]
          omega
      · have ha : a ≤ last := hk a hks
        have hja : s.j ≠ a := fun he => hjk (by rw [he, hks])
        rw [sweepMeasure_of_some rfl, sweepMeasure_of_some hks]
        show cdist last (circNext last s.j) a + 1 < _
        rw [cdist_circNext hj ha hja]
        have := cdist_pos hj ha hja
        omega
  · -- the leading index has wrapped onto the anchor: reuse the anchor
    -- direction; the trailing index catches up and the loop exits
    rw [if_neg hjk]
    have hjk' : s.k = some s.j := (not_ne_iff.mp hjk).symm
    obtain ⟨hbi, hbj, hbk, hbin⟩ :=
      sweepBody_next cff strength last s s.anchorPt s.anchorLen hi hj
    have hkk : (sweepBody cff strength last s s.anchorPt s.anchorLen).k =
        some s.j := by
      rw [hbk, if_neg (fun hc => by rw [hjk'] at hc; cases hc.2), hjk']
    refine ⟨⟨by rw [hbi]; exact hj, by rw [hbj]; exact circNext_le last s.j, ?_⟩,
      Or.inl ?_⟩
    · intro a ha
      rw [hkk] at ha
      rw [← Option.some.inj ha]
      exact hj
    · have : (sweepBody cff strength last s s.anchorPt s.anchorLen).k =
          some (sweepBody cff strength last s s.anchorPt s.anchorLen).i := by
        rw [hkk, hbi]
      simp [sweepDone, this]

theorem sweepLoop_done (cff : Bool) (sqrtFn : ℚ → ℚ) (strength : ℚ)
    (last : Nat) (fuel : Nat) (s : SweepState) (hf : 1 ≤ fuel)
    (hd : sweepDone s = true) :
    (sweepLoop cff sqrtFn strength last fuel s).1 = true := by
  cases fuel with
  | zero => omega
  | succ f =>
      unfold sweepLoop
      rw [if_pos hd]

theorem sweepLoop_complete (cff : Bool) (sqrtFn : ℚ → ℚ) (strength : ℚ)
    (last : Nat) :
    ∀ (fuel : Nat) (s : SweepState), sweepWF last s →
      sweepMeasure last s < fuel →
      (sweepLoop cff sqrtFn strength last fuel s).1 = true := by
  intro fuel
  induction fuel with
  | zero =>
      intro s _ h
      omega
  | succ fuel ih =>
      intro s hwf hm
      unfold sweepLoop
      by_cases hd : sweepDone s = true
      · rw [if_pos hd]
      · rw [if_neg hd]
        obtain ⟨hwf', hor⟩ := sweepStep_progress cff sqrtFn strength last s hwf hd
        rcases hor with hdone | hlt
        · refine sweepLoop_done cff sqrtFn strength last fuel _ ?_ hdone
          have := sweepMeasure_pos last s
          omega
        · exact ih _ hwf' (by omega)

/-- The sweep over any contour exits through its own loop condition: the
    chosen fuel always suffices, for every strength, winding and square-root
    model (in particular with duplicate points and zero-length edges). -/
theorem contourSweep_completes (cff : Bool) (sqrtFn : ℚ → ℚ) (strength : ℚ)
    (c : Contour) : (contourSweep cff sqrtFn strength c).1 = true := by
  unfold contourSweep
  by_cases hd : sweepDone
      ⟨sweepLast c, 0, none, Point.zero, 0, Point.zero, 0, c.points⟩ = true
  · exact sweepLoop_done cff sqrtFn strength (sweepLast c) _ _ (by omega) hd
  · refine sweepLoop_complete cff sqrtFn strength (sweepLast c) _ _
      ⟨le_refl _, Nat.zero_le _, fun a ha => by cases ha⟩ ?_
    have hlast0 : sweepLast c ≠ 0 := by
      simp only [sweepDone, Bool.or_eq_true, decide_eq_true_eq, not_or] at hd
      exact hd.1
    have hlt : sweepLast c < c.points.length := by
      unfold sweepLast at hlast0 ⊢
      by_cases hcl : contourClosed c
      · rw [if_pos hcl]
        have := hcl.1
        omega
      · rw [if_neg hcl] at hlast0 ⊢
        omega
    rw [sweepMeasure_of_none rfl, if_pos rfl]
    show 2 * (sweepLast c + 1) + cdist (sweepLast c) 0 (sweepLast c) + 2 < _
    rw [cdist_closed (Nat.zero_le _) (le_refl _), if_pos (Nat.zero_le _)]
    omega

theorem rsqrt_zero : rsqrt 0 = 0 := by
  norm_num [rsqrt]

theorem getD_allEq {l : List Point} {p : Point} (hall : ∀ q ∈ l, q = p)
    {i : Nat} (hi : i < l.length) : l.getD i Point.zero = p := by
  rw [List.getD_eq_getElem?_getD, List.getElem?_eq_getElem hi]
  exact hall _ (List.getElem_mem hi)

/-- On a contour whose points all coincide, every edge has zero length, so
    every iteration takes the continue path and the points never change. -/
theorem sweepLoop_allEq (cff : Bool) (strength : ℚ) (last : Nat) (p : Point) :
    ∀ (fuel : Nat) (s : SweepState), s.k = none →
      (∀ q ∈ s.pts, q = p) → last < s.pts.length → s.i ≤ last → s.j ≤ last →
      (sweepLoop cff rsqrt strength last fuel s).2.pts = s.pts := by
  intro fuel
  induction fuel with
  | zero =>
      intro s _ _ _ _ _
      rfl
  | succ fuel ih =>
      intro s hkn hall hlen hi hj
      unfold sweepLoop
      by_cases hd : sweepDone s = true
      · rw [if_pos hd]
      · rw [if_neg hd]
        have hx : edgeX s = 0 := by
          unfold edgeX
          rw [getD_allEq hall (by omega), getD_allEq hall (by omega), sub_self]
        have hy : edgeY s = 0 := by
          unfold edgeY
          rw [getD_allEq hall (by omega), getD_allEq hall (by omega), sub_self]
        have hlen0 : edgeLen rsqrt s = 0 := by
          unfold edgeLen
          rw [hx, hy]
          norm_num [rsqrt_zero]
        have hstep : sweepStep cff rsqrt strength last s =
            { s with j := circNext last s.j } := by
          unfold sweepStep
          rw [if_pos (by rw [hkn]; simp), if_neg (fun hc => hc hlen0)]
        rw [hstep]
        exact ih _ hkn hall hlen hi (circNext_le last s.j)

theorem emboldenContour_allEq (cff : Bool) (strength : ℚ) (c : Contour)
    (p : Point) (hall : ∀ q ∈ c.points, q = p) :
    emboldenContour cff rsqrt strength c = c := by
  unfold emboldenContour
  by_cases h0 : c.points.length = 0
  · rw [if_pos h0]
  · rw [if_neg h0]
    have hlast : sweepLast c < c.points.length := by
      unfold sweepLast
      by_cases hcl : contourClosed c
      · rw [if_pos hcl]
        have := hcl.1
        omega
      · rw [if_neg hcl]
        omega
    have hsw : (contourSweep cff rsqrt strength c).2.pts = c.points := by
      unfold contourSweep
      exact sweepLoop_allEq cff strength (sweepLast c) p _ _ rfl hall hlast
        (le_refl _) (Nat.zero_le _)
    by_cases hcl : contourClosed c
    · rw [if_pos hcl, hsw]
      have h1 : c.points.getD 0 Point.zero = p := getD_allEq hall (by omega)
      have h2 : c.points.getD (c.points.length - 1) Point.zero = p :=
        getD_allEq hall (by omega)
      rw [h1, ← h2, set_getD_self]
    · rw [if_neg hcl, hsw]

/-- Claim C7 (confirmed): the embolden sweep terminates on every contour for
    every strength: the fueled loop always exits through its own condition
    (at most one full anchor-bounded circuit plus the initial scan, which the
    fuel covers), even when duplicate points produce zero-length edges, for
    every square-root model; and a contour composed entirely of coincident
    points is left completely untouched. -/
theorem claimC7_sweep_terminates :
    (∀ (cff : Bool) (sqrtFn : ℚ → ℚ) (strength : ℚ) (c : Contour),
        (contourSweep cff sqrtFn strength c).1 = true) ∧
      (∀ (cff : Bool) (strength : ℚ) (c : Contour) (p : Point),
        (∀ q ∈ c.points, q = p) →
          emboldenContour cff rsqrt strength c = c) :=
  ⟨contourSweep_completes, emboldenContour_allEq⟩

/-- A contour made of three coincident points. -/
def coincContour : Contour :=
  ⟨[.moveTo, .lineTo, .lineTo], [⟨3, 4⟩, ⟨3, 4⟩, ⟨3, 4⟩]⟩

/-- Witness for C7 on the three-fold coincident contour at strength 5. -/
theorem claimC7_witness :
    (∀ q ∈ coincContour.points, q = (⟨3, 4⟩ : Point)) ∧
      (contourSweep false rsqrt 5 coincContour).1 = true ∧
      emboldenContour false rsqrt 5 coincContour = coincContour :=
  ⟨by decide, claimC7_sweep_terminates.1 false rsqrt 5 coincContour,
    claimC7_sweep_terminates.2 false 5 coincContour ⟨3, 4⟩ (by decide)⟩

end TtfUtils
